import Mathlib

/-!
Verification of the classical-cipher engine of this repository.

The source is a TypeScript module of 15 classical ciphers.  We embed it
shallowly: a JS string becomes a `List Nat` of its UTF-16 code units
(`charCodeAt` values), JS numbers that only ever hold integers become `Int`
(or `Nat` where the source value is provably a code), the JS remainder
operator `%` (truncating, sign of the dividend) becomes `Int.tmod`, and
functions that `throw` return `Except CipherError`.
-/

/-- CipherError enumerates the error kinds of the engine (the source throws
`Error` objects with distinguishing messages; we keep the kind only). -/
inductive CipherError where
  | emptyKey
  | invalidKey
  | noInverse
  | textTooLong
  | invalidMask
  deriving DecidableEq, Repr

/-- mod embeds the source utility `mod = (n, m) => ((n % m) + m) % m`,
with `%` the JS truncating remainder (`Int.tmod`). -/
def mod (n m : Int) : Int := (n.tmod m + m).tmod m

/-- jsGcdGo is the source `gcd` recursion `gcd(a,b) = b === 0 ? a : gcd(b, a % b)`
written with fuel so that it is structurally recursive; `jsGcd` supplies
enough fuel for the recursion to always reach its base case. -/
def jsGcdGo : Nat → Int → Int → Int
  | 0, a, _ => a
  | fuel + 1, a, b => if b = 0 then a else jsGcdGo fuel b (a.tmod b)

/-- jsGcd embeds the source `gcd` (note: on negative arguments the JS
truncating remainder can make it return a negative value such as -1). -/
def jsGcd (a b : Int) : Int := jsGcdGo (b.natAbs + 1) a b

/-- modInverse embeds the source `modInverse`: brute-force search for the
first `x` with `1 <= x < m` and `(a * x) % m === 1` (truncating `%`);
the source throws when the loop finds nothing, so we return an `Option`. -/
def modInverse (a m : Int) : Option Int :=
  ((List.range' 1 (m.toNat - 1)).find?
    (fun x : Nat => (a * (x : Int)).tmod m == 1)).map (fun x : Nat => (x : Int))

/-- toUpperCode models `toUpperCase` on a code unit (ASCII letters only,
which is all the engine ever feeds it). -/
def toUpperCode (c : Nat) : Nat := if 97 ≤ c ∧ c ≤ 122 then c - 32 else c

/-- toLowerCode models `toLowerCase` on a code unit (ASCII letters only). -/
def toLowerCode (c : Nat) : Nat := if 65 ≤ c ∧ c ≤ 90 then c + 32 else c

/-- isUpperCode: the source's uppercase test `code >= 65 && code <= 90`. -/
def isUpperCode (c : Nat) : Bool := decide (65 ≤ c ∧ c ≤ 90)

/-- isLowerCode: the source's lowercase test `code >= 97 && code <= 122`. -/
def isLowerCode (c : Nat) : Bool := decide (97 ≤ c ∧ c ≤ 122)

/-- isAlphaCode: letter test `[A-Za-z]` on a code unit. -/
def isAlphaCode (c : Nat) : Bool := isUpperCode c || isLowerCode c

/-- isDigitCode: digit test `[0-9]` on a code unit. -/
def isDigitCode (c : Nat) : Bool := decide (48 ≤ c ∧ c ≤ 57)

/-- codes converts a Lean string literal into the code-unit list that the
embedding works on (for the ASCII texts of the examples this is exactly
the JS `charCodeAt` sequence). -/
def codes (s : String) : List Nat := s.data.map Char.toNat

/-- processKeyLetters embeds `key.toUpperCase().replace(/[^A-Z]/g, '')`. -/
def processKeyLetters (key : List Nat) : List Nat :=
  (key.map toUpperCode).filter isUpperCode

/-- processKeyDigits embeds `key.replace(/[^0-9]/g, '')`. -/
def processKeyDigits (key : List Nat) : List Nat := key.filter isDigitCode

/-- countLetters embeds `text.replace(/[^A-Za-z]/g, '').length`. -/
def countLetters (text : List Nat) : Nat := (text.filter isAlphaCode).length

/-- mapAccumCipher is the per-character loop shared by the polyalphabetic
ciphers: each source loop walks the text once, producing one output
character per input character while threading a state (its key counter,
and for Auto-Key also the growing key). -/
def mapAccumCipher (step : Nat → σ → Nat × σ) : List Nat → σ → List Nat
  | [], _ => []
  | c :: rest, s => (step c s).1 :: mapAccumCipher step rest (step c s).2

/-- atbashChar is the per-character body of `atbashCipher`:
155 - code for A-Z, 219 - code for a-z, others unchanged. -/
def atbashChar (c : Nat) : Nat :=
  if 65 ≤ c ∧ c ≤ 90 then 155 - c
  else if 97 ≤ c ∧ c ≤ 122 then 219 - c
  else c

/-- atbashCipher embeds the source `atbashCipher` (steps trace omitted:
it is a passive sink and never influences the result). -/
def atbashCipher (text : List Nat) : List Nat := text.map atbashChar

/-- caesarChar is the per-character body of `caesarCipher` with the
already-normalized shift `key`. -/
def caesarChar (key : Int) (c : Nat) : Nat :=
  if 65 ≤ c ∧ c ≤ 90 then (mod ((c : Int) - 65 + key) 26).toNat + 65
  else if 97 ≤ c ∧ c ≤ 122 then (mod ((c : Int) - 97 + key) 26).toNat + 97
  else c

/-- caesarCipher embeds the source `caesarCipher`: the key is reduced with
`mod key 26`, decryption replaces it by `26 - key`. -/
def caesarCipher (text : List Nat) (key : Int) (encrypt : Bool) : List Nat :=
  let k0 := mod key 26
  let k := if encrypt then k0 else 26 - k0
  text.map (caesarChar k)

/-- affineChar is the per-character body of `affineCipher`; `aInv` is only
read in decrypt mode. -/
def affineChar (keyA keyB aInv : Int) (encrypt : Bool) (c : Nat) : Nat :=
  if 65 ≤ c ∧ c ≤ 90 then
    (if encrypt then (mod (keyA * ((c : Int) - 65) + keyB) 26).toNat
     else (mod (aInv * mod (((c : Int) - 65) - keyB) 26) 26).toNat) + 65
  else if 97 ≤ c ∧ c ≤ 122 then
    (if encrypt then (mod (keyA * ((c : Int) - 97) + keyB) 26).toNat
     else (mod (aInv * mod (((c : Int) - 97) - keyB) 26) 26).toNat) + 97
  else c

/-- affineCipher embeds the source `affineCipher`: it first rejects `keyA`
unless the source gcd returns exactly 1, reduces `keyB` mod 26, and in
decrypt mode computes the modular inverse of `keyA` up front (the source
throws when `modInverse` finds no witness). -/
def affineCipher (text : List Nat) (keyA keyB0 : Int) (encrypt : Bool) :
    Except CipherError (List Nat) :=
  if jsGcd keyA 26 ≠ 1 then .error .invalidKey
  else
    let keyB := mod keyB0 26
    if encrypt then .ok (text.map (affineChar keyA keyB 0 true))
    else
      match modInverse keyA 26 with
      | none => .error .noInverse
      | some aInv => .ok (text.map (affineChar keyA keyB aInv false))

/-- polyShiftChar is the per-character transform shared by every shift
cipher loop of the source (the case-preserving mapper policy): add the
key shift on encryption, subtract it on decryption, mod 26 over the
letter offset from `base` (65 or 97). -/
def polyShiftChar (base : Nat) (ks : Int) (encrypt : Bool) (c : Nat) : Nat :=
  (if encrypt then (mod ((c : Int) - base + ks) 26).toNat
   else (mod ((c : Int) - base - ks) 26).toNat) + base

/-- vigShift: the Vigenere key shift
`processedKey[keyIndex % processedKey.length].charCodeAt(0) - 65`. -/
def vigShift (pk : List Nat) (ki : Nat) : Int :=
  (pk.getD (ki % pk.length) 0 : Int) - 65

/-- vigStep is the loop body of `vigenereCipher`; `keyIndex` advances only
on letters. -/
def vigStep (pk : List Nat) (encrypt : Bool) (c : Nat) (ki : Nat) : Nat × Nat :=
  if 65 ≤ c ∧ c ≤ 90 then (polyShiftChar 65 (vigShift pk ki) encrypt c, ki + 1)
  else if 97 ≤ c ∧ c ≤ 122 then (polyShiftChar 97 (vigShift pk ki) encrypt c, ki + 1)
  else (c, ki)

/-- vigenereCipher embeds the source `vigenereCipher`, including its two
empty-key rejections. -/
def vigenereCipher (text key : List Nat) (encrypt : Bool) :
    Except CipherError (List Nat) :=
  if key = [] then .error .emptyKey
  else
    let pk := processKeyLetters key
    if pk = [] then .error .emptyKey
    else .ok (mapAccumCipher (vigStep pk encrypt) text 0)

/-- gronShift: the Gronsfeld key shift, a digit used directly
(`parseInt`, i.e. `code - 48`). -/
def gronShift (pk : List Nat) (ki : Nat) : Int :=
  (pk.getD (ki % pk.length) 0 : Int) - 48

/-- gronStep is the loop body of `gronsfeldCipher`: identical to Vigenere
except for the key shift derivation. -/
def gronStep (pk : List Nat) (encrypt : Bool) (c : Nat) (ki : Nat) : Nat × Nat :=
  if 65 ≤ c ∧ c ≤ 90 then (polyShiftChar 65 (gronShift pk ki) encrypt c, ki + 1)
  else if 97 ≤ c ∧ c ≤ 122 then (polyShiftChar 97 (gronShift pk ki) encrypt c, ki + 1)
  else (c, ki)

/-- gronsfeldCipher embeds the source `gronsfeldCipher`. -/
def gronsfeldCipher (text key : List Nat) (encrypt : Bool) :
    Except CipherError (List Nat) :=
  if key = [] then .error .emptyKey
  else
    let pk := processKeyDigits key
    if pk = [] then .error .emptyKey
    else .ok (mapAccumCipher (gronStep pk encrypt) text 0)

/-- beaufortChar: the Beaufort per-character transform
`(keyCode - 65 - (code - base)) mod 26 + base`; for `base = 65` the shift
argument `(kc - 65) - (code - 65)` equals the source's `keyCode - code`,
for `base = 97` it is the source's lowercase adjustment verbatim. -/
def beaufortChar (base : Nat) (kc : Int) (c : Nat) : Nat :=
  (mod ((kc - 65) - ((c : Int) - base)) 26).toNat + base

/-- beaufortStep is the loop body of `beaufortCipher`; there is no
encrypt/decrypt branch. -/
def beaufortStep (pk : List Nat) (c : Nat) (ki : Nat) : Nat × Nat :=
  if 65 ≤ c ∧ c ≤ 90 then
    (beaufortChar 65 (pk.getD (ki % pk.length) 0 : Int) c, ki + 1)
  else if 97 ≤ c ∧ c ≤ 122 then
    (beaufortChar 97 (pk.getD (ki % pk.length) 0 : Int) c, ki + 1)
  else (c, ki)

/-- beaufortCipher embeds the source `beaufortCipher` (no mode flag). -/
def beaufortCipher (text key : List Nat) : Except CipherError (List Nat) :=
  if key = [] then .error .emptyKey
  else
    let pk := processKeyLetters key
    if pk = [] then .error .emptyKey
    else .ok (mapAccumCipher (beaufortStep pk) text 0)

/-- autoStep is the loop body of `autoKeyCipher`.  The state is the pair
(absolute text position `i`, growing key `fullKey`).  Note the source
indexes `fullKey` with the absolute loop index `i` (falling back to the
last key character when `i` runs past the key), and `i` advances on every
character, alphabetic or not. -/
def autoShift (fk : List Nat) (i : Nat) : Int :=
  ((if i < fk.length then fk.getD i 0 else fk.getD (fk.length - 1) 0 : Nat) : Int) - 65

def autoStep (encrypt : Bool) (c : Nat) (s : Nat × List Nat) :
    Nat × (Nat × List Nat) :=
  let i := s.1
  let fk := s.2
  if 65 ≤ c ∧ c ≤ 90 then
    if encrypt then
      (polyShiftChar 65 (autoShift fk i) true c, (i + 1, fk ++ [c]))
    else
      (polyShiftChar 65 (autoShift fk i) false c,
       (i + 1, fk ++ [polyShiftChar 65 (autoShift fk i) false c]))
  else if 97 ≤ c ∧ c ≤ 122 then
    if encrypt then
      (polyShiftChar 97 (autoShift fk i) true c, (i + 1, fk ++ [toUpperCode c]))
    else
      (polyShiftChar 97 (autoShift fk i) false c,
       (i + 1, fk ++ [toUpperCode (polyShiftChar 97 (autoShift fk i) false c)]))
  else (c, (i + 1, fk))

/-- autoKeyCipher embeds the source `autoKeyCipher`: the initial key is the
processed key, and the key grows by the plaintext (encrypt) or by the
output produced so far (decrypt). -/
def autoKeyCipher (text key : List Nat) (encrypt : Bool) :
    Except CipherError (List Nat) :=
  if key = [] then .error .emptyKey
  else
    let pk := processKeyLetters key
    if pk = [] then .error .emptyKey
    else .ok (mapAccumCipher (autoStep encrypt) text (0, pk))

/-- buildFullKeyGo is the source loop
`while (fullKey.length < n) fullKey += processedKey`, written with fuel;
when the processed key is nonempty, fuel `n` always suffices. -/
def buildFullKeyGo (pk : List Nat) (n : Nat) : Nat → List Nat → List Nat
  | 0, acc => acc
  | fuel + 1, acc =>
    if acc.length < n then buildFullKeyGo pk n fuel (acc ++ pk) else acc

/-- buildFullKey tiles the processed key until its length reaches the
number of alphabetic characters of the text. -/
def buildFullKey (pk : List Nat) (n : Nat) : List Nat := buildFullKeyGo pk n n []

/-- runStep is the loop body of `runningKeyCipher`: the key character is
`fullKey[keyIndex]` (positional, no cycling), and `keyIndex` advances
only on letters. -/
def runShift (fullKey : List Nat) (ki : Nat) : Int :=
  (fullKey.getD ki 0 : Int) - 65

def runStep (fullKey : List Nat) (encrypt : Bool) (c : Nat) (ki : Nat) :
    Nat × Nat :=
  if 65 ≤ c ∧ c ≤ 90 then (polyShiftChar 65 (runShift fullKey ki) encrypt c, ki + 1)
  else if 97 ≤ c ∧ c ≤ 122 then (polyShiftChar 97 (runShift fullKey ki) encrypt c, ki + 1)
  else (c, ki)

/-- runningKeyCipher embeds the source `runningKeyCipher`: the key is
repeated until it covers every alphabetic character of the text, then
consumed positionally. -/
def runningKeyCipher (text key : List Nat) (encrypt : Bool) :
    Except CipherError (List Nat) :=
  if key = [] then .error .emptyKey
  else
    let pk := processKeyLetters key
    if pk = [] then .error .emptyKey
    else
      let fullKey := buildFullKey pk (countLetters text)
      .ok (mapAccumCipher (runStep fullKey encrypt) text 0)

/-- processedText embeds `text.toUpperCase().replace(/[^A-Z]/g, '')` as used
by the Hill cipher. -/
def processedText (text : List Nat) : List Nat :=
  (text.map toUpperCode).filter isUpperCode

/-- padX embeds the Hill padding: append the filler letter X (code 88) when
the filtered text has odd length. -/
def padX (p : List Nat) : List Nat := if p.length % 2 = 0 then p else p ++ [88]

/-- isValidMatrix embeds the source `isValidMatrix` determinant test (the
2x2 shape test is inherent in our four-entry representation).  Note the
source first reduces the determinant with the truncating `%` and then with
the true `mod`. -/
def isValidMatrix (m0 m1 m2 m3 : Int) : Bool :=
  jsGcd (mod ((m0 * m3 - m1 * m2).tmod 26) 26) 26 == 1

/-- matrixInverse embeds the source `matrixInverse`: adjugate times the
modular inverse of the determinant, every entry reduced mod 26.  The
source throws inside `modInverse` when the determinant is not invertible,
hence the `Option`. -/
def matrixInverse (m0 m1 m2 m3 : Int) : Option (Int × Int × Int × Int) :=
  let det := mod (m0 * m3 - m1 * m2) 26
  (modInverse det 26).map (fun detInv =>
    (mod (m3 * detInv) 26, mod ((-m1) * detInv) 26,
     mod ((-m2) * detInv) 26, mod (m0 * detInv) 26))

/-- hillBlocks embeds the Hill block loop: consume the padded uppercase
text two characters at a time and multiply each 2-vector of letter values
by the matrix, mod 26. -/
def hillBlocks (a b c d : Int) : List Nat → List Nat
  | x1 :: x2 :: rest =>
    ((mod (a * ((x1 : Int) - 65) + b * ((x2 : Int) - 65)) 26).toNat + 65) ::
    ((mod (c * ((x1 : Int) - 65) + d * ((x2 : Int) - 65)) 26).toNat + 65) ::
    hillBlocks a b c d rest
  | _ => []

/-- reinterleave embeds the final Hill loop that copies the transformed
letters back into the original letter positions (keeping case) and passes
other characters through; when the transformed stream runs out the source
guard `resultIndex < result.length` silently emits nothing. -/
def reinterleave : List Nat → List Nat → List Nat
  | [], _ => []
  | c :: rest, res =>
    if 65 ≤ c ∧ c ≤ 90 then
      match res with
      | r :: res2 => r :: reinterleave rest res2
      | [] => reinterleave rest []
    else if 97 ≤ c ∧ c ≤ 122 then
      match res with
      | r :: res2 => toLowerCode r :: reinterleave rest res2
      | [] => reinterleave rest []
    else c :: reinterleave rest res

/-- hillCipher embeds the source `hillCipher` for a 2x2 matrix
`[[m0, m1], [m2, m3]]`. -/
def hillCipher (text : List Nat) (m0 m1 m2 m3 : Int) (encrypt : Bool) :
    Except CipherError (List Nat) :=
  if ¬ isValidMatrix m0 m1 m2 m3 then .error .invalidKey
  else
    match (if encrypt then some (m0, m1, m2, m3) else matrixInverse m0 m1 m2 m3) with
    | none => .error .noInverse
    | some (a, b, c, d) =>
      let p := padX (processedText text)
      .ok (reinterleave text (hillBlocks a b c d p))

/-- railStep is one step of the zig-zag: the direction is recomputed from
the current rail (down at rail 0, up at the last rail), then the rail
moves one step in that direction. -/
def railStep (rails r : Nat) (down : Bool) : Nat × Bool :=
  let d := if r = 0 then true else if r = rails - 1 then false else down
  ((if d then r + 1 else r - 1), d)

/-- railSeqGo lists the rail index of each of the next `n` text positions,
starting from rail `r` moving in direction `down`. -/
def railSeqGo (rails : Nat) : Nat → Nat → Bool → List Nat
  | 0, _, _ => []
  | n + 1, r, down =>
    r :: (railSeqGo rails n (railStep rails r down).1 (railStep rails r down).2)

/-- railSeq is the zig-zag rail sequence for `n` characters (the source
starts at rail 0 going down). -/
def railSeq (rails n : Nat) : List Nat := railSeqGo rails n 0 true

/-- railFenceEnc embeds Rail Fence encryption: push each character onto its
rail, then read the rails top to bottom (`fence.flat()`). -/
def railFenceEnc (rails : Nat) (text : List Nat) : List Nat :=
  let rs := railSeq rails text.length
  (List.range rails).flatMap
    (fun k => ((rs.zip text).filter (fun p => p.1 == k)).map (fun p => p.2))

/-- railGroups gives rail `k` of the decryption fence: the source marks the
zig-zag slots, then fills the rails with consecutive ciphertext segments,
so rail `k` is the segment after the first `k` rails' worth of marks. -/
def railGroups (rs cipher : List Nat) (k : Nat) : List Nat :=
  (cipher.drop (((List.range k).map (fun j => rs.count j)).sum)).take (rs.count k)

/-- railPop embeds the decryption read-off: walk the zig-zag again and
`shift()` the next character from the current rail (an empty rail
contributes nothing, as in the source `|| ''`). -/
def railPop : List Nat → (Nat → List Nat) → List Nat
  | [], _ => []
  | r :: rest, q =>
    match q r with
    | [] => railPop rest q
    | c :: cq => c :: railPop rest (fun k => if k = r then cq else q k)

/-- railFenceDec embeds Rail Fence decryption. -/
def railFenceDec (rails : Nat) (text : List Nat) : List Nat :=
  let rs := railSeq rails text.length
  railPop rs (railGroups rs text)

/-- railFenceCipher embeds the source `railFenceCipher`, including the
`rails >= 2` validation. -/
def railFenceCipher (text : List Nat) (rails : Nat) (encrypt : Bool) :
    Except CipherError (List Nat) :=
  if rails < 2 then .error .invalidKey
  else .ok (if encrypt then railFenceEnc rails text else railFenceDec rails text)

/-- spiralGo lists the clockwise spiral positions of a `rows × cols` grid,
mirroring the source loop with its four shrinking bounds; the JS bounds
can momentarily go to -1 only in situations unreachable for
`rows, cols >= 2`, so the truncated `Nat` subtraction agrees with it. -/
def spiralGo : Nat → Nat → Nat → Nat → Nat → List (Nat × Nat)
  | 0, _, _, _, _ => []
  | fuel + 1, top, bottom, left, right =>
    if top ≤ bottom ∧ left ≤ right then
      let t2 := top + 1
      let part1 := (List.range' left (right + 1 - left)).map (fun j => (top, j))
      let part2 := (List.range' t2 (bottom + 1 - t2)).map (fun i => (i, right))
      let r2 := right - 1
      let part3 := if t2 ≤ bottom then
          ((List.range' left (r2 + 1 - left)).reverse).map (fun j => (bottom, j))
        else []
      let b2 := if t2 ≤ bottom then bottom - 1 else bottom
      let part4 := if left ≤ r2 then
          ((List.range' t2 (b2 + 1 - t2)).reverse).map (fun i => (i, left))
        else []
      let l2 := if left ≤ r2 then left + 1 else left
      part1 ++ part2 ++ part3 ++ part4 ++ spiralGo fuel t2 b2 l2 r2
    else []

/-- spiralPositions: the spiral route of the whole grid (fuel
`rows + cols` is far more than the number of shrinking rounds). -/
def spiralPositions (rows cols : Nat) : List (Nat × Nat) :=
  spiralGo (rows + cols) 0 (rows - 1) 0 (cols - 1)

/-- rowMajorGrid is the grid every transposition cipher builds by filling
row-major with the text, unfilled cells holding the space sentinel 32. -/
def rowMajorGrid (text : List Nat) (cols i j : Nat) : Nat :=
  if i * cols + j < text.length then text.getD (i * cols + j) 32 else 32

/-- assocGrid reads a grid represented by a write list (position, value):
the last write wins, absent cells hold the space sentinel 32. -/
def assocGrid (asg : List ((Nat × Nat) × Nat)) (i j : Nat) : Nat :=
  ((asg.reverse.find? (fun q => q.1 == (i, j))).map (fun q => q.2)).getD 32

/-- routeCipher embeds the source `routeCipher` (clockwise spiral route):
encryption reads the row-major grid in spiral order (sentinel cells
included), decryption writes the ciphertext in spiral order and reads
row-major, skipping sentinel cells. -/
def routeCipher (text : List Nat) (rows cols : Nat) (encrypt : Bool) :
    Except CipherError (List Nat) :=
  if rows < 2 ∨ cols < 2 then .error .invalidKey
  else if encrypt then
    .ok ((spiralPositions rows cols).map (fun p => rowMajorGrid text cols p.1 p.2))
  else
    let asg := ((spiralPositions rows cols).take text.length).zip text
    .ok (((List.range rows).flatMap (fun i =>
      (List.range cols).map (fun j => assocGrid asg i j))).filter (fun c => c != 32))

/-- colKeyOrder: the numeric column order digits of a Columnar key. -/
def colKeyOrder (key : List Nat) (j : Nat) : Nat := key.getD j 48 - 48

/-- columnarEnc embeds Columnar encryption: fill row-major, then read the
columns whose key digit is 1, then 2, ... skipping sentinel cells. -/
def columnarEnc (text key : List Nat) : List Nat :=
  let k := key.length
  let numRows := (text.length + k - 1) / k
  let maxK := (key.map (fun c => c - 48)).foldr max 0
  (List.range' 1 maxK).flatMap (fun d =>
    (List.range k).flatMap (fun j =>
      if colKeyOrder key j = d then
        ((List.range numRows).map (fun i => rowMajorGrid text k i j)).filter
          (fun c => c != 32)
      else []))

/-- columnarDec embeds Columnar decryption, including the source's column
length computation, which compares the key digit `keyOrder[j]` (not the
column position `j`) with the length of the last row. -/
def columnarDec (text key : List Nat) : List Nat :=
  let k := key.length
  let numRows := (text.length + k - 1) / k
  let lastRowLength := if text.length % k = 0 then k else text.length % k
  let colLen := fun j =>
    if text.length % k ≠ 0 ∧ colKeyOrder key j > lastRowLength then numRows - 1
    else numRows
  let maxK := (key.map (fun c => c - 48)).foldr max 0
  let fillOrder := (List.range' 1 maxK).flatMap (fun d =>
    (List.range k).flatMap (fun j =>
      if colKeyOrder key j = d then (List.range (colLen j)).map (fun i => (i, j))
      else []))
  let asg := fillOrder.zip text
  ((List.range numRows).flatMap (fun i =>
    (List.range k).map (fun j => assocGrid asg i j))).filter (fun c => c != 32)

/-- columnarCipher embeds the source `columnarCipher`, including the
non-empty and digits-only key validation. -/
def columnarCipher (text key : List Nat) (encrypt : Bool) :
    Except CipherError (List Nat) :=
  if key = [] then .error .emptyKey
  else if ¬ (key.all isDigitCode) then .error .invalidKey
  else .ok (if encrypt then columnarEnc text key else columnarDec text key)

/-- doubleTranspositionCipher embeds the source: two chained Columnar
passes (key1 then key2 on encryption, key2 then key1 on decryption). -/
def doubleTranspositionCipher (text key1 key2 : List Nat) (encrypt : Bool) :
    Except CipherError (List Nat) :=
  if key1 = [] ∨ key2 = [] then .error .emptyKey
  else if ¬ (key1.all isDigitCode) ∨ ¬ (key2.all isDigitCode) then .error .invalidKey
  else if encrypt then
    match columnarCipher text key1 true with
    | .error e => .error e
    | .ok r1 => columnarCipher r1 key2 true
  else
    match columnarCipher text key2 false with
    | .error e => .error e
    | .ok r1 => columnarCipher r1 key1 false

/-- insertSorted: insertion into a sorted list (ascending). -/
def insertSorted (x : Nat) : List Nat → List Nat
  | [] => [x]
  | y :: ys => if x ≤ y then x :: y :: ys else y :: insertSorted x ys

/-- sortNat: insertion sort, modelling the JS `.sort()` of the distinct key
characters (only the resulting sorted list of the distinct characters
matters, so the iteration order of the JS Set is irrelevant). -/
def sortNat : List Nat → List Nat
  | [] => []
  | x :: xs => insertSorted x (sortNat xs)

/-- myszRanks: the source `keyValues`, i.e. 1 + the position of each key
character among the sorted distinct key characters. -/
def myszRanks (pk : List Nat) (j : Nat) : Nat :=
  (sortNat pk.dedup).indexOf (pk.getD j 0) + 1

/-- myszkowskiEnc embeds Myszkowski encryption: columns of equal rank are
read together row by row. -/
def myszkowskiEnc (text pk : List Nat) : List Nat :=
  let k := pk.length
  let numRows := (text.length + k - 1) / k
  (List.range' 1 (sortNat pk.dedup).length).flatMap (fun v =>
    let columns := (List.range k).filter (fun j => myszRanks pk j == v)
    (List.range numRows).flatMap (fun i =>
      (columns.map (fun j => rowMajorGrid text k i j)).filter (fun c => c != 32)))

/-- myszkowskiDec embeds Myszkowski decryption: fill the same-rank columns
row by row with the ciphertext, then read row-major, skipping sentinel
cells. -/
def myszkowskiDec (text pk : List Nat) : List Nat :=
  let k := pk.length
  let numRows := (text.length + k - 1) / k
  let fillOrder := (List.range' 1 (sortNat pk.dedup).length).flatMap (fun v =>
    let columns := (List.range k).filter (fun j => myszRanks pk j == v)
    (List.range numRows).flatMap (fun i => columns.map (fun j => (i, j))))
  let asg := fillOrder.zip text
  ((List.range numRows).flatMap (fun i =>
    (List.range k).map (fun j => assocGrid asg i j))).filter (fun c => c != 32)

/-- myszkowskiCipher embeds the source `myszkowskiCipher`. -/
def myszkowskiCipher (text key : List Nat) (encrypt : Bool) :
    Except CipherError (List Nat) :=
  if key = [] then .error .emptyKey
  else
    let pk := processKeyLetters key
    if pk = [] then .error .emptyKey
    else .ok (if encrypt then myszkowskiEnc text pk else myszkowskiDec text pk)

/-- rotateGrille embeds the source 90-degree clockwise grille rotation
followed by the copy back into the original `rows × cols` window (for a
square mask this is the plain rotation; out-of-window reads are JS
`undefined`, i.e. not a hole). -/
def rotateGrille (rows cols : Nat) (g : List (List Bool)) : List (List Bool) :=
  (List.range rows).map (fun i => (List.range cols).map (fun j =>
    if i < cols ∧ j < rows then (g.getD (rows - 1 - j) []).getD i false
    else false))

/-- holes lists the hole positions of a grille in row-major scan order. -/
def holes (rows cols : Nat) (g : List (List Bool)) : List (Nat × Nat) :=
  (List.range rows).flatMap (fun i =>
    ((List.range cols).filter (fun j => (g.getD i []).getD j false)).map
      (fun j => (i, j)))

/-- grilleWriteOrder: the hole positions visited across the four successive
rotations of the grille, in source scan order. -/
def grilleWriteOrder (rows cols : Nat) (g : List (List Bool)) :
    List (Nat × Nat) :=
  let g1 := rotateGrille rows cols g
  let g2 := rotateGrille rows cols g1
  let g3 := rotateGrille rows cols g2
  holes rows cols g ++ holes rows cols g1 ++ holes rows cols g2 ++
    holes rows cols g3

/-- grillesCipher embeds the source `grillesCipher`.  The mask argument is
the list of mask rows (the source first splits its mask string on line
breaks; we take the split rows as input).  Encryption validates the mask
shape, counts the holes, rejects text longer than `holeCount * 4`, then
writes the text through the rotating grille and reads the grid row-major;
decryption fills the grid row-major and reads through the rotating
grille. -/
def grillesCipher (text : List Nat) (maskRows : List (List Nat))
    (encrypt : Bool) : Except CipherError (List Nat) :=
  let rows := maskRows.length
  let cols := (maskRows.headD []).length
  if ¬ maskRows.all (fun r => r.length == cols) then .error .invalidMask
  else
    let grille := maskRows.map (fun r => r.map (fun c => c == 49))
    if encrypt then
      let holeCount := (holes rows cols grille).length
      if text.length > holeCount * 4 then .error .textTooLong
      else
        let asg := (grilleWriteOrder rows cols grille).zip text
        .ok (((List.range rows).flatMap (fun i =>
          (List.range cols).map (fun j => assocGrid asg i j))).filter
            (fun c => c != 32))
    else
      let grid := fun (p : Nat × Nat) => rowMajorGrid text cols p.1 p.2
      .ok (((grilleWriteOrder rows cols grille).filter
        (fun p => grid p != 32)).map grid)

/-- grilleHoleCount: the number of holes the source counts in the parsed
grille mask (positions whose mask character is `1`). -/
def grilleHoleCount (maskRows : List (List Nat)) : Nat :=
  (holes maskRows.length (maskRows.headD []).length
    (maskRows.map (fun r => r.map (fun c => c == 49)))).length

/-- ShiftStepShape captures the loop-body shape shared by the Vigenere,
Gronsfeld and Running-Key loops: uppercase and lowercase letters are
shifted by `polyShiftChar` with a key shift depending only on the key
counter, other characters pass through with the counter unchanged. -/
def ShiftStepShape (ks : Nat → Int) (step : Bool → Nat → Nat → Nat × Nat) : Prop :=
  ∀ e c ki, step e c ki =
    if 65 ≤ c ∧ c ≤ 90 then (polyShiftChar 65 (ks ki) e c, ki + 1)
    else if 97 ≤ c ∧ c ≤ 122 then (polyShiftChar 97 (ks ki) e c, ki + 1)
    else (c, ki)

deriving instance DecidableEq for Except

example : codes "AB" = [65, 66] := by decide

example : atbashCipher (codes "Abc!") = codes "Zyx!" := by decide

example : caesarCipher (codes "Hello") 3 true = codes "Khoor" := by decide

example : vigenereCipher (codes "AB") (codes "B") true = .ok (codes "BC") := by
  decide

example : railFenceCipher (codes "WEAREDISCOVEREDFLEEATONCE") 3 true =
    .ok (codes "WECRLTEERDSOEEFEAOCAIVDEN") := by decide

example : columnarCipher (codes "HELLOWORLD") (codes "3124") true =
    .ok (codes "EWDLOHOLLR") := by decide

example : columnarCipher (codes "EWDLOHOLLR") (codes "3124") false =
    .ok (codes "OELLLWORDH") := by decide

example : routeCipher (codes "A B") 2 2 true = .ok (codes "A  B") := by decide

example : routeCipher (codes "A  B") 2 2 false = .ok (codes "AB") := by decide

example : hillCipher (codes "ABC") 1 2 3 5 true = .ok (codes "CFW") := by decide

example : hillCipher (codes "CFW") 1 2 3 5 false = .ok (codes "ABO") := by decide

example : autoKeyCipher (codes "A B") (codes "KEY") true = .ok (codes "K Z") := by
  decide

example : autoKeyCipher (codes "AB") (codes "KEY") true = .ok (codes "KF") := by
  decide

example : myszkowskiCipher (codes "A B") (codes "AB") true = .ok (codes "AB") := by
  decide

example : myszkowskiCipher (codes "AB") (codes "AB") false = .ok (codes "AB") := by
  decide

theorem mod_emod (n : Int) : mod n 26 = n % 26 := by
  unfold mod
  rcases le_or_lt 0 n with h | h
  · rw [Int.tmod_eq_emod h (by norm_num)]
    rw [Int.tmod_eq_emod (by omega) (by norm_num)]
    omega
  · have hneg : n.tmod 26 = -((-n).tmod 26) := by
      rw [Int.tmod_def, Int.tmod_def, Int.neg_tdiv]; ring
    have h2 : (-n).tmod 26 = (-n) % 26 :=
      Int.tmod_eq_emod (by omega) (by norm_num)
    rw [hneg, h2]
    rw [Int.tmod_eq_emod (by omega) (by norm_num)]
    omega

theorem modToNat_lt (s : Int) : (mod s 26).toNat < 26 := by
  rw [mod_emod]; omega

theorem mapAccum_length (step : Nat → σ → Nat × σ) :
    ∀ (l : List Nat) (s : σ), (mapAccumCipher step l s).length = l.length
  | [], _ => rfl
  | _ :: rest, s => by
    simp only [mapAccumCipher, List.length_cons]
    exact congrArg (· + 1) (mapAccum_length step rest _)

theorem mapAccum_roundtrip (stepE stepD : Nat → σ → Nat × σ)
    (h : ∀ c s, stepD (stepE c s).1 s = (c, (stepE c s).2)) :
    ∀ (l : List Nat) (s : σ),
      mapAccumCipher stepD (mapAccumCipher stepE l s) s = l := by
  intro l
  induction l with
  | nil => intro s; rfl
  | cons c rest ih =>
    intro s
    simp only [mapAccumCipher, h c s]
    exact congrArg (c :: ·) (ih _)

theorem mapAccum_passthrough (step : Nat → σ → Nat × σ)
    (h : ∀ c s, isAlphaCode c = false → (step c s).1 = c) :
    ∀ (l : List Nat) (s : σ) (i : Nat), isAlphaCode (l.getD i 0) = false →
      (mapAccumCipher step l s).getD i 0 = l.getD i 0 := by
  intro l
  induction l with
  | nil => intro s i _; rfl
  | cons c rest ih =>
    intro s i hi
    cases i with
    | zero =>
      simp only [List.getD_cons_zero] at hi ⊢
      simp only [mapAccumCipher, List.getD_cons_zero]
      exact h c s hi
    | succ n =>
      simp only [List.getD_cons_succ] at hi ⊢
      simp only [mapAccumCipher, List.getD_cons_succ]
      exact ih _ n hi

theorem mapAccum_filter (step : Nat → σ → Nat × σ)
    (hno : ∀ c s, isAlphaCode c = false → step c s = (c, s))
    (hal : ∀ c s, isAlphaCode c = true → isAlphaCode (step c s).1 = true) :
    ∀ (l : List Nat) (s : σ),
      (mapAccumCipher step l s).filter isAlphaCode =
        mapAccumCipher step (l.filter isAlphaCode) s := by
  intro l
  induction l with
  | nil => intro s; rfl
  | cons c rest ih =>
    intro s
    rcases hb : isAlphaCode c with _ | _
    · simp only [mapAccumCipher, hno c s hb, List.filter_cons, hb]
      simpa using ih s
    · simp only [mapAccumCipher, List.filter_cons, hb, hal c s hb]
      simpa using congrArg (List.cons (step c s).1) (ih (step c s).2)

theorem mapAccum_countLetters (step : Nat → σ → Nat × σ)
    (hno : ∀ c s, isAlphaCode c = false → step c s = (c, s))
    (hal : ∀ c s, isAlphaCode c = true → isAlphaCode (step c s).1 = true)
    (l : List Nat) (s : σ) :
    countLetters (mapAccumCipher step l s) = countLetters l := by
  unfold countLetters
  rw [mapAccum_filter step hno hal l s, mapAccum_length]

theorem polyShiftChar_range (base : Nat) (ks : Int) (encrypt : Bool) (c : Nat) :
    base ≤ polyShiftChar base ks encrypt c ∧
      polyShiftChar base ks encrypt c ≤ base + 25 := by
  cases encrypt
  · show base ≤ (mod ((c : Int) - base - ks) 26).toNat + base ∧
      (mod ((c : Int) - base - ks) 26).toNat + base ≤ base + 25
    have := modToNat_lt ((c : Int) - base - ks)
    omega
  · show base ≤ (mod ((c : Int) - base + ks) 26).toNat + base ∧
      (mod ((c : Int) - base + ks) 26).toNat + base ≤ base + 25
    have := modToNat_lt ((c : Int) - base + ks)
    omega

theorem polyShiftChar_inv (base : Nat) (ks : Int) (c : Nat)
    (h1 : base ≤ c) (h2 : c ≤ base + 25) :
    polyShiftChar base ks false (polyShiftChar base ks true c) = c := by
  show (mod ((((mod ((c : Int) - base + ks) 26).toNat + base : Nat) : Int) -
    base - ks) 26).toNat + base = c
  simp only [mod_emod]
  push_cast
  omega

theorem beaufortChar_range (base : Nat) (kc : Int) (c : Nat) :
    base ≤ beaufortChar base kc c ∧ beaufortChar base kc c ≤ base + 25 := by
  unfold beaufortChar
  have := modToNat_lt ((kc - 65) - ((c : Int) - base))
  omega

theorem beaufortChar_inv (base : Nat) (kc : Int) (c : Nat)
    (h1 : base ≤ c) (h2 : c ≤ base + 25) :
    beaufortChar base kc (beaufortChar base kc c) = c := by
  show (mod ((kc - 65) - ((((mod ((kc - 65) - ((c : Int) - base)) 26).toNat +
    base : Nat) : Int) - base)) 26).toNat + base = c
  simp only [mod_emod]
  push_cast
  omega

theorem isAlphaCode_eq_false_iff (c : Nat) :
    isAlphaCode c = false ↔ ¬(65 ≤ c ∧ c ≤ 90) ∧ ¬(97 ≤ c ∧ c ≤ 122) := by
  simp only [isAlphaCode, isUpperCode, isLowerCode, Bool.or_eq_false_iff,
    decide_eq_false_iff_not]

theorem isAlphaCode_eq_true_iff (c : Nat) :
    isAlphaCode c = true ↔ (65 ≤ c ∧ c ≤ 90) ∨ (97 ≤ c ∧ c ≤ 122) := by
  simp only [isAlphaCode, isUpperCode, isLowerCode, Bool.or_eq_true,
    decide_eq_true_eq]

theorem shiftShape_noalpha {ks : Nat → Int} {step : Bool → Nat → Nat → Nat × Nat}
    (h : ShiftStepShape ks step) (e : Bool) (c ki : Nat)
    (hc : isAlphaCode c = false) : step e c ki = (c, ki) := by
  obtain ⟨h1, h2⟩ := (isAlphaCode_eq_false_iff c).mp hc
  rw [h e c ki, if_neg h1, if_neg h2]

theorem shiftShape_alpha {ks : Nat → Int} {step : Bool → Nat → Nat → Nat × Nat}
    (h : ShiftStepShape ks step) (e : Bool) (c ki : Nat)
    (hc : isAlphaCode c = true) : isAlphaCode (step e c ki).1 = true := by
  rw [h e c ki]
  rcases (isAlphaCode_eq_true_iff c).mp hc with h1 | h2
  · rw [if_pos h1]
    have hr := polyShiftChar_range 65 (ks ki) e c
    exact (isAlphaCode_eq_true_iff _).mpr (Or.inl ⟨hr.1, by omega⟩)
  · rw [if_neg (by omega : ¬(65 ≤ c ∧ c ≤ 90)), if_pos h2]
    have hr := polyShiftChar_range 97 (ks ki) e c
    exact (isAlphaCode_eq_true_iff _).mpr (Or.inr ⟨hr.1, by omega⟩)

theorem shiftShape_inv {ks : Nat → Int} {step : Bool → Nat → Nat → Nat × Nat}
    (h : ShiftStepShape ks step) (c ki : Nat) :
    step false (step true c ki).1 ki = (c, (step true c ki).2) := by
  by_cases h1 : 65 ≤ c ∧ c ≤ 90
  · have e1 : step true c ki = (polyShiftChar 65 (ks ki) true c, ki + 1) := by
      rw [h, if_pos h1]
    have hr := polyShiftChar_range 65 (ks ki) true c
    have e2 : step false (polyShiftChar 65 (ks ki) true c) ki =
        (polyShiftChar 65 (ks ki) false
          (polyShiftChar 65 (ks ki) true c), ki + 1) := by
      rw [h, if_pos (by omega)]
    rw [e1, e2, polyShiftChar_inv 65 (ks ki) c h1.1 (by omega)]
  · by_cases h2 : 97 ≤ c ∧ c ≤ 122
    · have e1 : step true c ki = (polyShiftChar 97 (ks ki) true c, ki + 1) := by
        rw [h, if_neg h1, if_pos h2]
      have hr := polyShiftChar_range 97 (ks ki) true c
      have e2 : step false (polyShiftChar 97 (ks ki) true c) ki =
          (polyShiftChar 97 (ks ki) false
            (polyShiftChar 97 (ks ki) true c), ki + 1) := by
        rw [h, if_neg (by omega), if_pos (by omega)]
      rw [e1, e2, polyShiftChar_inv 97 (ks ki) c h2.1 (by omega)]
    · have e1 : step true c ki = (c, ki) := by
        rw [h, if_neg h1, if_neg h2]
      rw [e1, h, if_neg h1, if_neg h2]

theorem vigStep_shape (pk : List Nat) :
    ShiftStepShape (vigShift pk) (vigStep pk) := fun _ _ _ => rfl

theorem gronStep_shape (pk : List Nat) :
    ShiftStepShape (gronShift pk) (gronStep pk) := fun _ _ _ => rfl

theorem runStep_shape (fk : List Nat) :
    ShiftStepShape (runShift fk) (runStep fk) := fun _ _ _ => rfl

theorem beaufortStep_noalpha (pk : List Nat) (c ki : Nat)
    (hc : isAlphaCode c = false) : beaufortStep pk c ki = (c, ki) := by
  obtain ⟨h1, h2⟩ := (isAlphaCode_eq_false_iff c).mp hc
  unfold beaufortStep
  rw [if_neg h1, if_neg h2]

theorem beaufortStep_alpha (pk : List Nat) (c ki : Nat)
    (hc : isAlphaCode c = true) : isAlphaCode (beaufortStep pk c ki).1 = true := by
  unfold beaufortStep
  rcases (isAlphaCode_eq_true_iff c).mp hc with h1 | h2
  · rw [if_pos h1]
    have hr := beaufortChar_range 65 (pk.getD (ki % pk.length) 0 : Int) c
    exact (isAlphaCode_eq_true_iff _).mpr (Or.inl ⟨hr.1, by omega⟩)
  · rw [if_neg (by omega : ¬(65 ≤ c ∧ c ≤ 90)), if_pos h2]
    have hr := beaufortChar_range 97 (pk.getD (ki % pk.length) 0 : Int) c
    exact (isAlphaCode_eq_true_iff _).mpr (Or.inr ⟨hr.1, by omega⟩)

theorem beaufortStep_inv (pk : List Nat) (c ki : Nat) :
    beaufortStep pk (beaufortStep pk c ki).1 ki = (c, (beaufortStep pk c ki).2) := by
  by_cases h1 : 65 ≤ c ∧ c ≤ 90
  · have e1 : beaufortStep pk c ki =
        (beaufortChar 65 (pk.getD (ki % pk.length) 0 : Int) c, ki + 1) := by
      unfold beaufortStep
      rw [if_pos h1]
    have hr := beaufortChar_range 65 (pk.getD (ki % pk.length) 0 : Int) c
    have e2 : beaufortStep pk (beaufortChar 65 (pk.getD (ki % pk.length) 0 : Int) c) ki =
        (beaufortChar 65 (pk.getD (ki % pk.length) 0 : Int)
          (beaufortChar 65 (pk.getD (ki % pk.length) 0 : Int) c), ki + 1) := by
      unfold beaufortStep
      rw [if_pos (by omega)]
    rw [e1, e2, beaufortChar_inv 65 (pk.getD (ki % pk.length) 0 : Int) c h1.1 (by omega)]
  · by_cases h2 : 97 ≤ c ∧ c ≤ 122
    · have e1 : beaufortStep pk c ki =
          (beaufortChar 97 (pk.getD (ki % pk.length) 0 : Int) c, ki + 1) := by
        unfold beaufortStep
        rw [if_neg h1, if_pos h2]
      have hr := beaufortChar_range 97 (pk.getD (ki % pk.length) 0 : Int) c
      have e2 : beaufortStep pk (beaufortChar 97 (pk.getD (ki % pk.length) 0 : Int) c) ki =
          (beaufortChar 97 (pk.getD (ki % pk.length) 0 : Int)
            (beaufortChar 97 (pk.getD (ki % pk.length) 0 : Int) c), ki + 1) := by
        unfold beaufortStep
        rw [if_neg (by omega), if_pos (by omega)]
      rw [e1, e2, beaufortChar_inv 97 (pk.getD (ki % pk.length) 0 : Int) c h2.1 (by omega)]
    · have e1 : beaufortStep pk c ki = (c, ki) := by
        unfold beaufortStep
        rw [if_neg h1, if_neg h2]
      rw [e1]
      unfold beaufortStep
      rw [if_neg h1, if_neg h2]

theorem autoStep_noalpha_fst (e : Bool) (c : Nat) (s : Nat × List Nat)
    (hc : isAlphaCode c = false) : (autoStep e c s).1 = c := by
  obtain ⟨h1, h2⟩ := (isAlphaCode_eq_false_iff c).mp hc
  unfold autoStep
  rw [if_neg h1, if_neg h2]

theorem autoStep_inv (c : Nat) (s : Nat × List Nat) :
    autoStep false (autoStep true c s).1 s = (c, (autoStep true c s).2) := by
  obtain ⟨i, fk⟩ := s
  by_cases h1 : 65 ≤ c ∧ c ≤ 90
  · have e1 : autoStep true c (i, fk) =
        (polyShiftChar 65 (autoShift fk i) true c, (i + 1, fk ++ [c])) := by
      unfold autoStep
      rw [if_pos h1]
      rfl
    have hr := polyShiftChar_range 65 (autoShift fk i) true c
    have e2 : autoStep false (polyShiftChar 65 (autoShift fk i) true c) (i, fk) =
        (polyShiftChar 65 (autoShift fk i) false
           (polyShiftChar 65 (autoShift fk i) true c),
         (i + 1, fk ++ [polyShiftChar 65 (autoShift fk i) false
           (polyShiftChar 65 (autoShift fk i) true c)])) := by
      unfold autoStep
      rw [if_pos (by omega)]
      rfl
    rw [e1, e2, polyShiftChar_inv 65 (autoShift fk i) c h1.1 (by omega)]
  · by_cases h2 : 97 ≤ c ∧ c ≤ 122
    · have e1 : autoStep true c (i, fk) =
          (polyShiftChar 97 (autoShift fk i) true c,
           (i + 1, fk ++ [toUpperCode c])) := by
        unfold autoStep
        rw [if_neg h1, if_pos h2]
        rfl
      have hr := polyShiftChar_range 97 (autoShift fk i) true c
      have e2 : autoStep false (polyShiftChar 97 (autoShift fk i) true c) (i, fk) =
          (polyShiftChar 97 (autoShift fk i) false
             (polyShiftChar 97 (autoShift fk i) true c),
           (i + 1, fk ++ [toUpperCode (polyShiftChar 97 (autoShift fk i) false
             (polyShiftChar 97 (autoShift fk i) true c))])) := by
        unfold autoStep
        rw [if_neg (by omega), if_pos (by omega)]
        rfl
      rw [e1, e2, polyShiftChar_inv 97 (autoShift fk i) c h2.1 (by omega)]
    · have e1 : autoStep true c (i, fk) = (c, (i + 1, fk)) := by
        unfold autoStep
        rw [if_neg h1, if_neg h2]
      rw [e1]
      unfold autoStep
      rw [if_neg h1, if_neg h2]

theorem tmod26_nonpos_of_neg (n : Int) (hn : n < 0) : n.tmod 26 ≤ 0 := by
  have h1 : n.tmod 26 = -((-n).tmod 26) := by
    rw [Int.tmod_def, Int.tmod_def, Int.neg_tdiv]
    ring
  have h2 : 0 ≤ (-n).tmod 26 := Int.tmod_nonneg _ (by omega)
  omega

theorem jsGcdGo_eq_gcd :
    ∀ (fuel : Nat) (a b : Nat), b < fuel →
      jsGcdGo fuel (a : Int) (b : Int) = (Nat.gcd a b : Int) := by
  intro fuel
  induction fuel with
  | zero => intro a b h; exact absurd h (Nat.not_lt_zero b)
  | succ fuel ih =>
    intro a b hb
    unfold jsGcdGo
    by_cases h0 : b = 0
    · subst h0
      rw [if_pos (by norm_num), Nat.gcd_zero_right]
    · rw [if_neg (by exact_mod_cast h0)]
      have hcast : (a : Int).tmod (b : Int) = ((a % b : Nat) : Int) := by
        rw [Int.tmod_eq_emod (by positivity) (by positivity), Int.ofNat_emod]
      have hlt : a % b < b := Nat.mod_lt a (Nat.pos_of_ne_zero h0)
      rw [hcast, ih b (a % b) (by omega)]
      norm_cast
      calc Nat.gcd b (a % b) = Nat.gcd (a % b) b := Nat.gcd_comm _ _
        _ = Nat.gcd b a := (Nat.gcd_rec b a).symm
        _ = Nat.gcd a b := Nat.gcd_comm _ _

theorem jsGcd_eq_gcd_of_nonneg (a : Int) (ha : 0 ≤ a) :
    jsGcd a 26 = (Int.gcd a 26 : Int) := by
  obtain ⟨n, rfl⟩ := Int.eq_ofNat_of_zero_le ha
  exact jsGcdGo_eq_gcd 27 n 26 (by omega)

theorem modInverse_range_eq :
    (List.range' 1 ((26 : Int).toNat - 1)) = List.range' 1 25 := rfl

theorem modInverse_some_spec (a x : Int) (h : modInverse a 26 = some x) :
    (a * x).tmod 26 = 1 ∧ 1 ≤ x ∧ x < 26 := by
  unfold modInverse at h
  rw [modInverse_range_eq] at h
  rw [Option.map_eq_some'] at h
  obtain ⟨n, hfind, rfl⟩ := h
  have hp := List.find?_some hfind
  have hm := List.mem_of_find?_eq_some hfind
  have hb := List.mem_range'_1.mp hm
  simp only [beq_iff_eq] at hp
  exact ⟨hp, by exact_mod_cast hb.1, by exact_mod_cast hb.2⟩

theorem modInverse_isSome_of_gcd (a : Int) (ha : 0 ≤ a) (h : Int.gcd a 26 = 1) :
    (modInverse a 26).isSome := by
  have key : ∀ dn ∈ List.range 26, Nat.gcd dn 26 = 1 →
      ∃ xn ∈ List.range' 1 25, (dn * xn) % 26 = 1 := by decide
  lift a to Nat using ha with n
  have h' : Nat.gcd n 26 = 1 := by simpa [Int.gcd] using h
  have hg : Nat.gcd (n % 26) 26 = 1 := by
    calc Nat.gcd (n % 26) 26 = Nat.gcd 26 n := (Nat.gcd_rec 26 n).symm
      _ = Nat.gcd n 26 := Nat.gcd_comm _ _
      _ = 1 := h'
  obtain ⟨xn, hxmem, hx⟩ := key (n % 26) (by
    simp only [List.mem_range]
    omega) hg
  unfold modInverse
  rw [modInverse_range_eq]
  have hfind : ((List.range' 1 25).find?
      (fun x : Nat => (((n : Nat) : Int) * (x : Int)).tmod 26 == 1)).isSome := by
    rw [List.find?_isSome]
    refine ⟨xn, hxmem, ?_⟩
    have hnn : (0 : Int) ≤ (n : Int) * (xn : Int) := by positivity
    have heq : ((n : Int) * (xn : Int)).tmod 26 = (((n * xn) % 26 : Nat) : Int) := by
      rw [Int.tmod_eq_emod hnn (by norm_num)]
      push_cast
      rfl
    have h2 : (n * xn) % 26 = (n % 26 * xn) % 26 := by
      conv_lhs => rw [Nat.mul_mod]
      conv_rhs => rw [Nat.mul_mod, Nat.mod_mod_of_dvd n dvd_rfl]
    rw [beq_iff_eq, heq, h2, hx]
    rfl
  obtain ⟨y, hy⟩ := Option.isSome_iff_exists.mp hfind
  rw [hy]
  rfl

theorem modInverse_none_of_neg (a : Int) (ha : a < 0) : modInverse a 26 = none := by
  unfold modInverse
  rw [modInverse_range_eq]
  have hfind : ((List.range' 1 25).find?
      (fun x : Nat => (a * (x : Int)).tmod 26 == 1)) = none := by
    rw [List.find?_eq_none]
    intro n hn
    have hb := List.mem_range'_1.mp hn
    have hneg : a * (n : Int) < 0 := by
      have h1 : (1 : Int) ≤ (n : Int) := by exact_mod_cast hb.1
      nlinarith
    have := tmod26_nonpos_of_neg (a * (n : Int)) hneg
    simp only [beq_iff_eq]
    omega
  rw [hfind]
  rfl

theorem atbashChar_inv (c : Nat) : atbashChar (atbashChar c) = c := by
  unfold atbashChar
  by_cases h1 : 65 ≤ c ∧ c ≤ 90
  · rw [if_pos h1, if_pos (by omega)]
    omega
  · by_cases h2 : 97 ≤ c ∧ c ≤ 122
    · rw [if_neg h1, if_pos h2, if_neg (by omega), if_pos (by omega)]
      omega
    · rw [if_neg h1, if_neg h2, if_neg h1, if_neg h2]

theorem atbash_atbash (text : List Nat) : atbashCipher (atbashCipher text) = text := by
  unfold atbashCipher
  rw [List.map_map, show atbashChar ∘ atbashChar = id from funext atbashChar_inv,
    List.map_id]

theorem caesarChar_inv (k0 : Int) (c : Nat) :
    caesarChar (26 - k0) (caesarChar k0 c) = c := by
  unfold caesarChar
  by_cases h1 : 65 ≤ c ∧ c ≤ 90
  · rw [if_pos h1, if_pos (by have := modToNat_lt ((c : Int) - 65 + k0); omega)]
    simp only [mod_emod]
    push_cast
    omega
  · by_cases h2 : 97 ≤ c ∧ c ≤ 122
    · rw [if_neg h1, if_pos h2,
        if_neg (by have := modToNat_lt ((c : Int) - 97 + k0); omega),
        if_pos (by have := modToNat_lt ((c : Int) - 97 + k0); omega)]
      simp only [mod_emod]
      push_cast
      omega
    · rw [if_neg h1, if_neg h2, if_neg h1, if_neg h2]

theorem caesar_rt (text : List Nat) (k : Int) :
    caesarCipher (caesarCipher text k true) k false = text := by
  show List.map (caesarChar (26 - mod k 26)) (List.map (caesarChar (mod k 26)) text) = text
  rw [List.map_map,
    show caesarChar (26 - mod k 26) ∘ caesarChar (mod k 26) = id from
      funext (caesarChar_inv (mod k 26)),
    List.map_id]

theorem mod_nonneg_lt (s : Int) : 0 ≤ mod s 26 ∧ mod s 26 < 26 := by
  rw [mod_emod]
  omega

theorem affine_cancel (keyA aInv keyB x : Int)
    (hx : 0 ≤ x ∧ x < 26) (hinv : (keyA * aInv) % 26 = 1) :
    mod (aInv * mod ((mod (keyA * x + keyB) 26) - keyB) 26) 26 = x := by
  simp only [mod_emod]
  have h1 : ((keyA * x + keyB) % 26 - keyB) % 26 = (keyA * x) % 26 := by omega
  rw [h1]
  have h2 : (aInv * ((keyA * x) % 26)) % 26 = (aInv * (keyA * x)) % 26 := by
    rw [Int.mul_emod, Int.emod_emod_of_dvd _ dvd_rfl, ← Int.mul_emod]
  rw [h2, show aInv * (keyA * x) = (keyA * aInv) * x from by ring,
    Int.mul_emod, hinv]
  omega

theorem affineChar_inv (keyA keyB aInv : Int) (c : Nat)
    (hinv : (keyA * aInv) % 26 = 1) :
    affineChar keyA keyB aInv false (affineChar keyA keyB 0 true c) = c := by
  by_cases h1 : 65 ≤ c ∧ c ≤ 90
  · have e1 : affineChar keyA keyB 0 true c =
        (mod (keyA * ((c : Int) - 65) + keyB) 26).toNat + 65 := by
      unfold affineChar
      rw [if_pos h1]
      rfl
    have hb := mod_nonneg_lt (keyA * ((c : Int) - 65) + keyB)
    have e2 : affineChar keyA keyB aInv false
        ((mod (keyA * ((c : Int) - 65) + keyB) 26).toNat + 65) =
        (mod (aInv * mod ((((mod (keyA * ((c : Int) - 65) + keyB) 26).toNat +
          65 : Nat) : Int) - 65 - keyB) 26) 26).toNat + 65 := by
      unfold affineChar
      rw [if_pos (by omega)]
      rfl
    have hc : (((mod (keyA * ((c : Int) - 65) + keyB) 26).toNat + 65 : Nat) : Int)
        - 65 = mod (keyA * ((c : Int) - 65) + keyB) 26 := by
      push_cast [Int.toNat_of_nonneg hb.1]
      ring
    rw [e1, e2, hc, affine_cancel keyA aInv keyB ((c : Int) - 65)
      (by omega) hinv]
    omega
  · by_cases h2 : 97 ≤ c ∧ c ≤ 122
    · have e1 : affineChar keyA keyB 0 true c =
          (mod (keyA * ((c : Int) - 97) + keyB) 26).toNat + 97 := by
        unfold affineChar
        rw [if_neg h1, if_pos h2]
        rfl
      have hb := mod_nonneg_lt (keyA * ((c : Int) - 97) + keyB)
      have e2 : affineChar keyA keyB aInv false
          ((mod (keyA * ((c : Int) - 97) + keyB) 26).toNat + 97) =
          (mod (aInv * mod ((((mod (keyA * ((c : Int) - 97) + keyB) 26).toNat +
            97 : Nat) : Int) - 97 - keyB) 26) 26).toNat + 97 := by
        unfold affineChar
        rw [if_neg (by omega), if_pos (by omega)]
        rfl
      have hc : (((mod (keyA * ((c : Int) - 97) + keyB) 26).toNat + 97 : Nat) : Int)
          - 97 = mod (keyA * ((c : Int) - 97) + keyB) 26 := by
        push_cast [Int.toNat_of_nonneg hb.1]
        ring
      rw [e1, e2, hc, affine_cancel keyA aInv keyB ((c : Int) - 97)
        (by omega) hinv]
      omega
    · have e1 : affineChar keyA keyB 0 true c = c := by
        unfold affineChar
        rw [if_neg h1, if_neg h2]
      rw [e1]
      unfold affineChar
      rw [if_neg h1, if_neg h2]

theorem affine_rt (text : List Nat) (keyA keyB : Int) (ct : List Nat)
    (ha : 0 ≤ keyA) (h : affineCipher text keyA keyB true = .ok ct) :
    affineCipher ct keyA keyB false = .ok text := by
  by_cases hg : jsGcd keyA 26 ≠ 1
  · simp only [affineCipher, if_pos hg] at h
    exact Except.noConfusion h
  · simp only [affineCipher, if_neg hg] at h ⊢
    rw [not_not] at hg
    have hgcd : Int.gcd keyA 26 = 1 := by
      have := jsGcd_eq_gcd_of_nonneg keyA ha
      omega
    obtain ⟨aInv, hInv⟩ :=
      Option.isSome_iff_exists.mp (modInverse_isSome_of_gcd keyA ha hgcd)
    rw [hInv]
    simp only [if_true, Bool.false_eq_true, if_false] at h ⊢
    obtain ⟨hspec, hge, _⟩ := modInverse_some_spec keyA aInv hInv
    have hemod : (keyA * aInv) % 26 = 1 := by
      rw [← Int.tmod_eq_emod (by positivity) (by norm_num)]
      exact hspec
    rw [Except.ok.injEq] at h
    rw [← h, List.map_map,
      show affineChar keyA (mod keyB 26) aInv false ∘
          affineChar keyA (mod keyB 26) 0 true = id from
        funext (fun c => affineChar_inv keyA (mod keyB 26) aInv c hemod),
      List.map_id]

theorem vigenere_rt (text key ct : List Nat)
    (h : vigenereCipher text key true = .ok ct) :
    vigenereCipher ct key false = .ok text := by
  by_cases hk : key = []
  · simp only [vigenereCipher, if_pos hk] at h
    exact Except.noConfusion h
  · by_cases hpk : processKeyLetters key = []
    · simp only [vigenereCipher, if_neg hk, if_pos hpk] at h
      exact Except.noConfusion h
    · simp only [vigenereCipher, if_neg hk, if_neg hpk] at h ⊢
      rw [Except.ok.injEq] at h
      rw [← h]
      exact congrArg Except.ok (mapAccum_roundtrip _ _
        (fun c ki => shiftShape_inv (vigStep_shape (processKeyLetters key)) c ki)
        text 0)

theorem gronsfeld_rt (text key ct : List Nat)
    (h : gronsfeldCipher text key true = .ok ct) :
    gronsfeldCipher ct key false = .ok text := by
  by_cases hk : key = []
  · simp only [gronsfeldCipher, if_pos hk] at h
    exact Except.noConfusion h
  · by_cases hpk : processKeyDigits key = []
    · simp only [gronsfeldCipher, if_neg hk, if_pos hpk] at h
      exact Except.noConfusion h
    · simp only [gronsfeldCipher, if_neg hk, if_neg hpk] at h ⊢
      rw [Except.ok.injEq] at h
      rw [← h]
      exact congrArg Except.ok (mapAccum_roundtrip _ _
        (fun c ki => shiftShape_inv (gronStep_shape (processKeyDigits key)) c ki)
        text 0)

theorem beaufort_rt (text key ct : List Nat)
    (h : beaufortCipher text key = .ok ct) :
    beaufortCipher ct key = .ok text := by
  by_cases hk : key = []
  · simp only [beaufortCipher, if_pos hk] at h
    exact Except.noConfusion h
  · by_cases hpk : processKeyLetters key = []
    · simp only [beaufortCipher, if_neg hk, if_pos hpk] at h
      exact Except.noConfusion h
    · simp only [beaufortCipher, if_neg hk, if_neg hpk] at h ⊢
      rw [Except.ok.injEq] at h
      rw [← h]
      exact congrArg Except.ok (mapAccum_roundtrip _ _
        (fun c ki => beaufortStep_inv (processKeyLetters key) c ki) text 0)

theorem autoKey_rt (text key ct : List Nat)
    (h : autoKeyCipher text key true = .ok ct) :
    autoKeyCipher ct key false = .ok text := by
  by_cases hk : key = []
  · simp only [autoKeyCipher, if_pos hk] at h
    exact Except.noConfusion h
  · by_cases hpk : processKeyLetters key = []
    · simp only [autoKeyCipher, if_neg hk, if_pos hpk] at h
      exact Except.noConfusion h
    · simp only [autoKeyCipher, if_neg hk, if_neg hpk] at h ⊢
      rw [Except.ok.injEq] at h
      rw [← h]
      exact congrArg Except.ok (mapAccum_roundtrip _ _
        (fun c s => autoStep_inv c s) text (0, processKeyLetters key))

theorem runningKey_rt (text key ct : List Nat)
    (h : runningKeyCipher text key true = .ok ct) :
    runningKeyCipher ct key false = .ok text := by
  by_cases hk : key = []
  · simp only [runningKeyCipher, if_pos hk] at h
    exact Except.noConfusion h
  · by_cases hpk : processKeyLetters key = []
    · simp only [runningKeyCipher, if_neg hk, if_pos hpk] at h
      exact Except.noConfusion h
    · simp only [runningKeyCipher, if_neg hk, if_neg hpk] at h ⊢
      rw [Except.ok.injEq] at h
      have hcount : countLetters ct = countLetters text := by
        rw [← h]
        exact mapAccum_countLetters _
          (fun c s hc => shiftShape_noalpha (runStep_shape _) true c s hc)
          (fun c s hc => shiftShape_alpha (runStep_shape _) true c s hc) text 0
      rw [hcount, ← h]
      exact congrArg Except.ok (mapAccum_roundtrip _ _
        (fun c ki => shiftShape_inv
          (runStep_shape (buildFullKey (processKeyLetters key)
            (countLetters text))) c ki) text 0)

theorem railSeqGo_length (rails : Nat) :
    ∀ (n r : Nat) (d : Bool), (railSeqGo rails n r d).length = n := by
  intro n
  induction n with
  | zero => intro r d; rfl
  | succ n ih =>
    intro r d
    simp only [railSeqGo, List.length_cons, ih]

theorem railStep_fst_lt (rails r : Nat) (down : Bool) (h2 : 2 ≤ rails)
    (hr : r < rails) : (railStep rails r down).1 < rails := by
  show (if (if r = 0 then true else if r = rails - 1 then false else down)
    then r + 1 else r - 1) < rails
  cases hd : (if r = 0 then true else if r = rails - 1 then false else down) with
  | false =>
    show r - 1 < rails
    omega
  | true =>
    show r + 1 < rails
    by_cases h0 : r = 0
    · omega
    · rw [if_neg h0] at hd
      by_cases h1 : r = rails - 1
      · rw [if_pos h1] at hd
        exact absurd hd (by simp)
      · omega

theorem railSeqGo_lt (rails : Nat) (h2 : 2 ≤ rails) :
    ∀ (n r : Nat) (d : Bool), r < rails →
      ∀ x ∈ railSeqGo rails n r d, x < rails := by
  intro n
  induction n with
  | zero => intro r d _ x hx; exact absurd hx (List.not_mem_nil x)
  | succ n ih =>
    intro r d hr x hx
    simp only [railSeqGo, List.mem_cons] at hx
    rcases hx with rfl | hx
    · exact hr
    · exact ih _ _ (railStep_fst_lt rails r d h2 hr) x hx

theorem zip_filter_length (k : Nat) :
    ∀ (rs xs : List Nat), rs.length = xs.length →
      (((rs.zip xs).filter (fun p => p.1 == k)).map (fun p => p.2)).length =
        rs.count k := by
  intro rs
  induction rs with
  | nil => intro xs h; rfl
  | cons r rs' ih =>
    intro xs h
    cases xs with
    | nil => exact absurd h (by simp)
    | cons x xs' =>
      simp only [List.zip_cons_cons, List.filter_cons, List.count_cons]
      by_cases hrk : r = k
      · subst hrk
        simp only [beq_self_eq_true, if_true, List.map_cons, List.length_cons]
        rw [ih xs' (by simpa using h)]
      · have hbeq : (r == k) = false := by simpa using hrk
        simp only [hbeq, Bool.false_eq_true, if_false]
        rw [ih xs' (by simpa using h)]
        omega

theorem group_nil_of_not_mem (k : Nat) (rs xs : List Nat) (hk : k ∉ rs) :
    ((rs.zip xs).filter (fun p => p.1 == k)).map (fun p => p.2) = [] := by
  have hfil : (rs.zip xs).filter (fun p => p.1 == k) = [] := by
    rw [List.filter_eq_nil_iff]
    intro p hp
    obtain ⟨h1, -⟩ := List.of_mem_zip (a := p.1) (b := p.2) hp
    simp only [beq_iff_eq]
    intro heq
    exact hk (heq ▸ h1)
  rw [hfil]
  rfl

theorem map_add_sum (f g : Nat → Nat) :
    ∀ (L : List Nat), (L.map (fun k => f k + g k)).sum =
      (L.map f).sum + (L.map g).sum := by
  intro L
  induction L with
  | nil => rfl
  | cons a L ih =>
    simp only [List.map_cons, List.sum_cons, ih]
    omega

theorem sum_beq_range (a : Nat) :
    ∀ m, ((List.range m).map (fun k => if a == k then 1 else 0)).sum =
      if a < m then 1 else 0 := by
  intro m
  induction m with
  | zero => simp
  | succ m ih =>
    rw [List.range_succ, List.map_append, List.sum_append, ih]
    simp only [List.map_cons, List.map_nil, List.sum_cons, List.sum_nil,
      beq_iff_eq]
    split_ifs <;> omega

theorem sum_counts (m : Nat) :
    ∀ (l : List Nat), (∀ x ∈ l, x < m) →
      ((List.range m).map (fun k => l.count k)).sum = l.length := by
  intro l
  induction l with
  | nil => simp
  | cons a l ih =>
    intro hall
    have hmap : (List.range m).map (fun k => (a :: l).count k) =
        (List.range m).map (fun k => l.count k + if a == k then 1 else 0) := by
      apply List.map_congr_left
      intro j _
      rw [List.count_cons]
    rw [hmap, map_add_sum, ih (fun x hx => hall x (List.mem_cons_of_mem a hx)),
      sum_beq_range, if_pos (hall a (List.mem_cons_self a l))]
    simp [List.length_cons]

theorem railPop_spec :
    ∀ (rs xs : List Nat) (q : Nat → List Nat), rs.length = xs.length →
      (∀ k, q k = ((rs.zip xs).filter (fun p => p.1 == k)).map (fun p => p.2)) →
      railPop rs q = xs := by
  intro rs
  induction rs with
  | nil =>
    intro xs q hlen _
    cases xs with
    | nil => rfl
    | cons x xs' => exact absurd hlen (by simp)
  | cons r rs' ih =>
    intro xs q hlen hq
    cases xs with
    | nil => exact absurd hlen (by simp)
    | cons x xs' =>
      have hqr : q r = x ::
          ((rs'.zip xs').filter (fun p => p.1 == r)).map (fun p => p.2) := by
        rw [hq r]
        simp only [List.zip_cons_cons, List.filter_cons, beq_self_eq_true,
          if_true, List.map_cons]
      unfold railPop
      rw [hqr]
      refine congrArg (x :: ·) (ih xs' _ (by simpa using hlen) ?_)
      intro k
      by_cases hkr : k = r
      · subst hkr
        rw [if_pos rfl]
      · rw [if_neg hkr, hq k]
        have hbeq : (r == k) = false := by
          simp only [beq_eq_false_iff_ne, ne_eq]
          exact fun h => hkr h.symm
        simp only [List.zip_cons_cons, List.filter_cons, hbeq,
          Bool.false_eq_true, if_false]

theorem seg_extract :
    ∀ {α : Type} (g : Nat → List α) (k s len : Nat), k < len →
      (((((List.range' s len).map g).flatten).drop
          (((List.range' s k).map (fun j => (g j).length)).sum)).take
        (g (s + k)).length) = g (s + k) := by
  intro α g k
  induction k with
  | zero =>
    intro s len hlen
    obtain ⟨len', rfl⟩ : ∃ len', len = len' + 1 := ⟨len - 1, by omega⟩
    rw [List.range'_succ]
    simp only [List.map_cons, List.flatten_cons, List.range'_zero, List.map_nil,
      List.sum_nil, List.drop_zero, Nat.add_zero]
    exact List.take_left _ _
  | succ k ih =>
    intro s len hlen
    obtain ⟨len', rfl⟩ : ∃ len', len = len' + 1 := ⟨len - 1, by omega⟩
    rw [List.range'_succ, List.range'_succ]
    simp only [List.map_cons, List.flatten_cons, List.sum_cons]
    rw [← List.drop_drop, List.drop_left]
    have hadd : s + (k + 1) = (s + 1) + k := by omega
    rw [hadd]
    exact ih (s + 1) len' (by omega)

theorem railSeq_length (rails n : Nat) : (railSeq rails n).length = n :=
  railSeqGo_length rails n 0 true

theorem railSeq_lt (rails n : Nat) (h2 : 2 ≤ rails) :
    ∀ x ∈ railSeq rails n, x < rails :=
  railSeqGo_lt rails h2 n 0 true (by omega)

theorem railFenceEnc_eq_flatten (rails : Nat) (text : List Nat) :
    railFenceEnc rails text =
      ((List.range' 0 rails).map (fun k =>
        (((railSeq rails text.length).zip text).filter
          (fun p => p.1 == k)).map (fun p => p.2))).flatten := by
  show (List.range rails).flatMap _ = _
  rw [List.flatMap_def, List.range_eq_range']

theorem railFenceEnc_length (rails : Nat) (text : List Nat) (h2 : 2 ≤ rails) :
    (railFenceEnc rails text).length = text.length := by
  rw [railFenceEnc_eq_flatten, List.length_flatten, List.map_map]
  have hpt : ((List.range' 0 rails).map (List.length ∘ fun k =>
      (((railSeq rails text.length).zip text).filter
        (fun p => p.1 == k)).map (fun p => p.2))) =
      (List.range' 0 rails).map (fun k => (railSeq rails text.length).count k) := by
    apply List.map_congr_left
    intro k _
    exact zip_filter_length k _ text (railSeq_length rails text.length)
  rw [hpt, ← List.range_eq_range',
    sum_counts rails _ (railSeq_lt rails text.length h2), railSeq_length]

theorem railGroups_spec (rails : Nat) (text : List Nat) (h2 : 2 ≤ rails) (k : Nat) :
    railGroups (railSeq rails text.length) (railFenceEnc rails text) k =
      (((railSeq rails text.length).zip text).filter
        (fun p => p.1 == k)).map (fun p => p.2) := by
  by_cases hk : k < rails
  · unfold railGroups
    have hcnt : ∀ j, (railSeq rails text.length).count j =
        ((((railSeq rails text.length).zip text).filter
          (fun p => p.1 == j)).map (fun p => p.2)).length :=
      fun j => (zip_filter_length j _ text (railSeq_length rails text.length)).symm
    have hsum : ((List.range k).map
        (fun j => (railSeq rails text.length).count j)).sum =
        ((List.range' 0 k).map (fun j =>
          ((((railSeq rails text.length).zip text).filter
            (fun p => p.1 == j)).map (fun p => p.2)).length)).sum := by
      rw [← List.range_eq_range']
      exact congrArg List.sum (List.map_congr_left (fun j _ => hcnt j))
    rw [hcnt k, hsum, railFenceEnc_eq_flatten]
    have := seg_extract (fun j =>
      (((railSeq rails text.length).zip text).filter
        (fun p => p.1 == j)).map (fun p => p.2)) k 0 rails hk
    rw [Nat.zero_add] at this
    exact this
  · unfold railGroups
    have hnot : k ∉ railSeq rails text.length := fun hmem =>
      absurd (railSeq_lt rails text.length h2 k hmem) (by omega)
    rw [List.count_eq_zero.mpr hnot, List.take_zero]
    exact (group_nil_of_not_mem k _ text hnot).symm

theorem railFence_rt (rails : Nat) (text : List Nat) (h2 : 2 ≤ rails) :
    railFenceDec rails (railFenceEnc rails text) = text := by
  have hlen := railFenceEnc_length rails text h2
  show railPop (railSeq rails (railFenceEnc rails text).length)
    (railGroups (railSeq rails (railFenceEnc rails text).length)
      (railFenceEnc rails text)) = text
  rw [hlen]
  exact railPop_spec _ text _ (railSeq_length rails text.length)
    (railGroups_spec rails text h2)

theorem railFenceCipher_rt (text : List Nat) (rails : Nat) (ct : List Nat)
    (h : railFenceCipher text rails true = .ok ct) :
    railFenceCipher ct rails false = .ok text := by
  by_cases hr : rails < 2
  · simp only [railFenceCipher, if_pos hr] at h
    exact Except.noConfusion h
  · simp only [railFenceCipher, if_neg hr] at h ⊢
    have h' : Except.ok (railFenceEnc rails text) = Except.ok ct := h
    rw [Except.ok.injEq] at h'
    show Except.ok (railFenceDec rails ct) = Except.ok text
    rw [← h']
    exact congrArg Except.ok (railFence_rt rails text (by omega))

theorem mod_tmod (n : Int) : mod (n.tmod 26) 26 = mod n 26 := by
  have h := Int.tmod_def n 26
  rw [mod_emod, mod_emod, h]
  omega

theorem processedText_mem (text : List Nat) :
    ∀ c ∈ processedText text, 65 ≤ c ∧ c ≤ 90 := by
  intro c hc
  unfold processedText at hc
  have h2 := (List.mem_filter.mp hc).2
  simp only [isUpperCode, decide_eq_true_eq] at h2
  exact h2

theorem countLetters_nil : countLetters [] = 0 := rfl

theorem countLetters_cons (c : Nat) (l : List Nat) :
    countLetters (c :: l) =
      (if isAlphaCode c then 1 else 0) + countLetters l := by
  unfold countLetters
  rw [List.filter_cons]
  by_cases h : isAlphaCode c = true
  · rw [if_pos h, if_pos h, List.length_cons]
    omega
  · rw [if_neg h, if_neg h]
    omega

theorem processedText_nil : processedText [] = [] := rfl

theorem processedText_cons (c : Nat) (l : List Nat) :
    processedText (c :: l) =
      if isUpperCode (toUpperCode c) then toUpperCode c :: processedText l
      else processedText l := by
  unfold processedText
  rw [List.map_cons, List.filter_cons]

theorem isUpperCode_toUpperCode_eq_isAlphaCode (c : Nat) :
    isUpperCode (toUpperCode c) = isAlphaCode c := by
  unfold toUpperCode
  by_cases h : 97 ≤ c ∧ c ≤ 122
  · rw [if_pos h]
    simp only [isUpperCode, isAlphaCode, isLowerCode]
    rw [decide_eq_true (by omega : 65 ≤ c - 32 ∧ c - 32 ≤ 90),
      decide_eq_true (by omega : 97 ≤ c ∧ c ≤ 122)]
    simp
  · rw [if_neg h]
    simp only [isUpperCode, isAlphaCode, isLowerCode]
    by_cases h2 : 65 ≤ c ∧ c ≤ 90
    · rw [decide_eq_true h2]
      simp
    · rw [decide_eq_false h2, decide_eq_false h]
      simp

theorem processedText_length (l : List Nat) :
    (processedText l).length = countLetters l := by
  induction l with
  | nil => rfl
  | cons c l ih =>
    rw [processedText_cons, countLetters_cons,
      isUpperCode_toUpperCode_eq_isAlphaCode]
    by_cases h : isAlphaCode c = true
    · rw [if_pos h, if_pos h, List.length_cons]
      omega
    · rw [if_neg h, if_neg h]
      omega

theorem hillBlocks_length (a b c d : Int) :
    ∀ (p : List Nat), p.length % 2 = 0 → (hillBlocks a b c d p).length = p.length
  | [], _ => rfl
  | [x], h => by simp at h
  | x1 :: x2 :: rest, h => by
    simp only [hillBlocks, List.length_cons]
    rw [hillBlocks_length a b c d rest (by
      simp only [List.length_cons] at h
      omega)]

theorem hillBlocks_mem (a b c d : Int) :
    ∀ (p : List Nat), ∀ y ∈ hillBlocks a b c d p, 65 ≤ y ∧ y ≤ 90
  | [] => by intro y hy; exact absurd hy (List.not_mem_nil y)
  | [x] => by intro y hy; exact absurd hy (List.not_mem_nil y)
  | x1 :: x2 :: rest => by
    intro y hy
    simp only [hillBlocks, List.mem_cons] at hy
    rcases hy with rfl | rfl | hy
    · have := mod_nonneg_lt (a * ((x1 : Int) - 65) + b * ((x2 : Int) - 65))
      omega
    · have := mod_nonneg_lt (c * ((x1 : Int) - 65) + d * ((x2 : Int) - 65))
      omega
    · exact hillBlocks_mem a b c d rest y hy

theorem toUpperCode_of_upper (r : Nat) (h : 65 ≤ r ∧ r ≤ 90) :
    toUpperCode r = r := by
  unfold toUpperCode
  rw [if_neg (by omega)]

theorem processedText_reinterleave :
    ∀ (text res : List Nat), (∀ y ∈ res, 65 ≤ y ∧ y ≤ 90) →
      countLetters text ≤ res.length →
      processedText (reinterleave text res) = res.take (countLetters text) := by
  intro text
  induction text with
  | nil =>
    intro res _ _
    rw [countLetters_nil, List.take_zero]
    rfl
  | cons c rest ih =>
    intro res hres hlen
    by_cases h1 : 65 ≤ c ∧ c ≤ 90
    · have hc : isAlphaCode c = true :=
        (isAlphaCode_eq_true_iff c).mpr (Or.inl h1)
      rw [countLetters_cons, hc, if_pos rfl] at hlen ⊢
      cases res with
      | nil => simp at hlen
      | cons r res' =>
        have hr := hres r (List.mem_cons_self r res')
        have e1 : reinterleave (c :: rest) (r :: res') =
            r :: reinterleave rest res' := by
          show (if 65 ≤ c ∧ c ≤ 90 then
              match r :: res' with
              | r :: res2 => r :: reinterleave rest res2
              | [] => reinterleave rest []
            else if 97 ≤ c ∧ c ≤ 122 then
              match r :: res' with
              | r :: res2 => toLowerCode r :: reinterleave rest res2
              | [] => reinterleave rest []
            else c :: reinterleave rest (r :: res')) =
            r :: reinterleave rest res'
          rw [if_pos h1]
        rw [e1, processedText_cons, toUpperCode_of_upper r hr,
          if_pos (by simp only [isUpperCode, decide_eq_true_eq]; exact hr),
          ih res' (fun y hy => hres y (List.mem_cons_of_mem r hy))
            (by simp only [List.length_cons] at hlen; omega)]
        rw [show 1 + countLetters rest = countLetters rest + 1 from by omega,
          List.take_succ_cons]
    · by_cases h2 : 97 ≤ c ∧ c ≤ 122
      · have hc : isAlphaCode c = true :=
          (isAlphaCode_eq_true_iff c).mpr (Or.inr h2)
        rw [countLetters_cons, hc, if_pos rfl] at hlen ⊢
        cases res with
        | nil => simp at hlen
        | cons r res' =>
          have hr := hres r (List.mem_cons_self r res')
          have e1 : reinterleave (c :: rest) (r :: res') =
              toLowerCode r :: reinterleave rest res' := by
            show (if 65 ≤ c ∧ c ≤ 90 then
                match r :: res' with
                | r :: res2 => r :: reinterleave rest res2
                | [] => reinterleave rest []
              else if 97 ≤ c ∧ c ≤ 122 then
                match r :: res' with
                | r :: res2 => toLowerCode r :: reinterleave rest res2
                | [] => reinterleave rest []
              else c :: reinterleave rest (r :: res')) =
              toLowerCode r :: reinterleave rest res'
            rw [if_neg h1, if_pos h2]
          have hlow : toLowerCode r = r + 32 := by
            unfold toLowerCode
            rw [if_pos hr]
          have hup : toUpperCode (r + 32) = r := by
            unfold toUpperCode
            rw [if_pos (by omega)]
            omega
          rw [e1, hlow, processedText_cons, hup,
            if_pos (by simp only [isUpperCode, decide_eq_true_eq]; exact hr),
            ih res' (fun y hy => hres y (List.mem_cons_of_mem r hy))
              (by simp only [List.length_cons] at hlen; omega)]
          rw [show 1 + countLetters rest = countLetters rest + 1 from by omega,
            List.take_succ_cons]
      · have hc : isAlphaCode c = false := by
          rw [isAlphaCode_eq_false_iff]
          exact ⟨h1, h2⟩
        rw [countLetters_cons, hc, if_neg (by simp)] at hlen ⊢
        have e1 : reinterleave (c :: rest) res = c :: reinterleave rest res := by
          cases res with
          | nil =>
            show (if 65 ≤ c ∧ c ≤ 90 then reinterleave rest []
              else if 97 ≤ c ∧ c ≤ 122 then reinterleave rest []
              else c :: reinterleave rest []) = c :: reinterleave rest []
            rw [if_neg h1, if_neg h2]
          | cons r res' =>
            show (if 65 ≤ c ∧ c ≤ 90 then r :: reinterleave rest res'
              else if 97 ≤ c ∧ c ≤ 122 then toLowerCode r :: reinterleave rest res'
              else c :: reinterleave rest (r :: res')) =
              c :: reinterleave rest (r :: res')
            rw [if_neg h1, if_neg h2]
        rw [e1, processedText_cons,
          if_neg (by rw [isUpperCode_toUpperCode_eq_isAlphaCode, hc]; simp),
          ih res hres (by omega), Nat.zero_add]

theorem reinterleave_cons_other (c : Nat) (rest res : List Nat)
    (h1 : ¬(65 ≤ c ∧ c ≤ 90)) (h2 : ¬(97 ≤ c ∧ c ≤ 122)) :
    reinterleave (c :: rest) res = c :: reinterleave rest res := by
  cases res with
  | nil =>
    show (if 65 ≤ c ∧ c ≤ 90 then reinterleave rest []
      else if 97 ≤ c ∧ c ≤ 122 then reinterleave rest []
      else c :: reinterleave rest []) = c :: reinterleave rest []
    rw [if_neg h1, if_neg h2]
  | cons r res' =>
    show (if 65 ≤ c ∧ c ≤ 90 then r :: reinterleave rest res'
      else if 97 ≤ c ∧ c ≤ 122 then toLowerCode r :: reinterleave rest res'
      else c :: reinterleave rest (r :: res')) = c :: reinterleave rest (r :: res')
    rw [if_neg h1, if_neg h2]

theorem reinterleave_cons_upper (c : Nat) (rest : List Nat) (r : Nat)
    (res' : List Nat) (h1 : 65 ≤ c ∧ c ≤ 90) :
    reinterleave (c :: rest) (r :: res') = r :: reinterleave rest res' := by
  show (if 65 ≤ c ∧ c ≤ 90 then r :: reinterleave rest res'
    else if 97 ≤ c ∧ c ≤ 122 then toLowerCode r :: reinterleave rest res'
    else c :: reinterleave rest (r :: res')) = r :: reinterleave rest res'
  rw [if_pos h1]

theorem reinterleave_cons_lower (c : Nat) (rest : List Nat) (r : Nat)
    (res' : List Nat) (h1 : ¬(65 ≤ c ∧ c ≤ 90)) (h2 : 97 ≤ c ∧ c ≤ 122) :
    reinterleave (c :: rest) (r :: res') =
      toLowerCode r :: reinterleave rest res' := by
  show (if 65 ≤ c ∧ c ≤ 90 then r :: reinterleave rest res'
    else if 97 ≤ c ∧ c ≤ 122 then toLowerCode r :: reinterleave rest res'
    else c :: reinterleave rest (r :: res')) = toLowerCode r :: reinterleave rest res'
  rw [if_neg h1, if_pos h2]

theorem reinterleave_length :
    ∀ (text res : List Nat), countLetters text ≤ res.length →
      (reinterleave text res).length = text.length := by
  intro text
  induction text with
  | nil => intro res _; rfl
  | cons c rest ih =>
    intro res hlen
    by_cases h1 : 65 ≤ c ∧ c ≤ 90
    · have hc : isAlphaCode c = true :=
        (isAlphaCode_eq_true_iff c).mpr (Or.inl h1)
      rw [countLetters_cons, hc, if_pos rfl] at hlen
      cases res with
      | nil => simp at hlen
      | cons r res' =>
        rw [reinterleave_cons_upper c rest r res' h1, List.length_cons,
          List.length_cons, ih res'
            (by simp only [List.length_cons] at hlen; omega)]
    · by_cases h2 : 97 ≤ c ∧ c ≤ 122
      · have hc : isAlphaCode c = true :=
          (isAlphaCode_eq_true_iff c).mpr (Or.inr h2)
        rw [countLetters_cons, hc, if_pos rfl] at hlen
        cases res with
        | nil => simp at hlen
        | cons r res' =>
          rw [reinterleave_cons_lower c rest r res' h1 h2, List.length_cons,
            List.length_cons, ih res'
              (by simp only [List.length_cons] at hlen; omega)]
      · have hc : isAlphaCode c = false := by
          rw [isAlphaCode_eq_false_iff]
          exact ⟨h1, h2⟩
        rw [countLetters_cons, hc, if_neg (by simp)] at hlen
        rw [reinterleave_cons_other c rest res h1 h2, List.length_cons,
          ih res (by omega), List.length_cons]

theorem countLetters_reinterleave (text res : List Nat)
    (hres : ∀ y ∈ res, 65 ≤ y ∧ y ≤ 90)
    (hlen : countLetters text ≤ res.length) :
    countLetters (reinterleave text res) = countLetters text := by
  rw [← processedText_length, processedText_reinterleave text res hres hlen,
    List.length_take]
  omega

theorem emod_comb (a u b v : Int) :
    ((a % 26) * (u % 26) + (b % 26) * (v % 26)) % 26 = (a * u + b * v) % 26 := by
  conv_lhs => rw [Int.add_emod]
  rw [← Int.mul_emod, ← Int.mul_emod, ← Int.add_emod]

theorem emod_mul_left_arg (w z : Int) : (w % 26 * z) % 26 = (w * z) % 26 := by
  rw [Int.mul_emod, Int.emod_emod_of_dvd _ dvd_rfl, ← Int.mul_emod]

theorem hill_scalar1 (m0 m1 m2 m3 di X1 X2 : Int)
    (hX1 : 0 ≤ X1 ∧ X1 < 26)
    (hinv : (((m0 * m3 - m1 * m2) % 26) * di) % 26 = 1) :
    (((m3 * di) % 26) * ((m0 * X1 + m1 * X2) % 26) +
      (((-m1) * di) % 26) * ((m2 * X1 + m3 * X2) % 26)) % 26 = X1 := by
  rw [emod_comb,
    show m3 * di * (m0 * X1 + m1 * X2) + (-m1) * di * (m2 * X1 + m3 * X2) =
      ((m0 * m3 - m1 * m2) * di) * X1 from by ring,
    Int.mul_emod]
  have h1 : ((m0 * m3 - m1 * m2) * di) % 26 = 1 := by
    rw [← emod_mul_left_arg]
    exact hinv
  rw [h1]
  omega

theorem hill_scalar2 (m0 m1 m2 m3 di X1 X2 : Int)
    (hX2 : 0 ≤ X2 ∧ X2 < 26)
    (hinv : (((m0 * m3 - m1 * m2) % 26) * di) % 26 = 1) :
    ((((-m2) * di) % 26) * ((m0 * X1 + m1 * X2) % 26) +
      ((m0 * di) % 26) * ((m2 * X1 + m3 * X2) % 26)) % 26 = X2 := by
  rw [emod_comb,
    show (-m2) * di * (m0 * X1 + m1 * X2) + m0 * di * (m2 * X1 + m3 * X2) =
      ((m0 * m3 - m1 * m2) * di) * X2 from by ring,
    Int.mul_emod]
  have h1 : ((m0 * m3 - m1 * m2) * di) % 26 = 1 := by
    rw [← emod_mul_left_arg]
    exact hinv
  rw [h1]
  omega

theorem cast_code (E : Int) :
    (((mod E 26).toNat + 65 : Nat) : Int) - 65 = mod E 26 := by
  have h := mod_nonneg_lt E
  push_cast [Int.toNat_of_nonneg h.1]
  ring

theorem hillBlocks_inv (m0 m1 m2 m3 di : Int)
    (hinv : (((m0 * m3 - m1 * m2) % 26) * di) % 26 = 1) :
    ∀ (p : List Nat), (∀ y ∈ p, 65 ≤ y ∧ y ≤ 90) → p.length % 2 = 0 →
      hillBlocks (mod (m3 * di) 26) (mod ((-m1) * di) 26)
        (mod ((-m2) * di) 26) (mod (m0 * di) 26)
        (hillBlocks m0 m1 m2 m3 p) = p
  | [], _, _ => rfl
  | [x], _, h2 => by simp at h2
  | x1 :: x2 :: rest, hmem, h2 => by
    have hx1 := hmem x1 (by simp)
    have hx2 := hmem x2 (by simp)
    have hrec := hillBlocks_inv m0 m1 m2 m3 di hinv rest
      (fun y hy => hmem y (by simp [hy]))
      (by simp only [List.length_cons] at h2; omega)
    simp only [hillBlocks, List.cons.injEq]
    refine ⟨?_, ?_, hrec⟩
    · rw [cast_code, cast_code]
      simp only [mod_emod]
      rw [hill_scalar1 m0 m1 m2 m3 di ((x1 : Int) - 65) ((x2 : Int) - 65)
        (by omega) hinv]
      omega
    · rw [cast_code, cast_code]
      simp only [mod_emod]
      rw [hill_scalar2 m0 m1 m2 m3 di ((x1 : Int) - 65) ((x2 : Int) - 65)
        (by omega) hinv]
      omega

theorem hill_valid_parts (m0 m1 m2 m3 : Int)
    (hv : isValidMatrix m0 m1 m2 m3 = true) :
    ∃ di, modInverse (mod (m0 * m3 - m1 * m2) 26) 26 = some di ∧
      (((m0 * m3 - m1 * m2) % 26) * di) % 26 = 1 := by
  unfold isValidMatrix at hv
  rw [beq_iff_eq, mod_tmod] at hv
  have hnn : 0 ≤ mod (m0 * m3 - m1 * m2) 26 :=
    (mod_nonneg_lt (m0 * m3 - m1 * m2)).1
  have hgcd : Int.gcd (mod (m0 * m3 - m1 * m2) 26) 26 = 1 := by
    have := jsGcd_eq_gcd_of_nonneg (mod (m0 * m3 - m1 * m2) 26) hnn
    omega
  obtain ⟨di, hdi⟩ := Option.isSome_iff_exists.mp
    (modInverse_isSome_of_gcd (mod (m0 * m3 - m1 * m2) 26) hnn hgcd)
  refine ⟨di, hdi, ?_⟩
  obtain ⟨hspec, hge, -⟩ := modInverse_some_spec _ di hdi
  rw [Int.tmod_eq_emod (by positivity) (by norm_num)] at hspec
  simpa only [mod_emod] using hspec

theorem hillCipher_enc_eq (text : List Nat) (m0 m1 m2 m3 : Int)
    (hv : isValidMatrix m0 m1 m2 m3 = true) :
    hillCipher text m0 m1 m2 m3 true = .ok (reinterleave text
      (hillBlocks m0 m1 m2 m3 (padX (processedText text)))) := by
  unfold hillCipher
  rw [if_neg (by simp [hv])]
  rfl

theorem hillCipher_dec_eq (text : List Nat) (m0 m1 m2 m3 di : Int)
    (hv : isValidMatrix m0 m1 m2 m3 = true)
    (hdi : modInverse (mod (m0 * m3 - m1 * m2) 26) 26 = some di) :
    hillCipher text m0 m1 m2 m3 false = .ok (reinterleave text
      (hillBlocks (mod (m3 * di) 26) (mod ((-m1) * di) 26)
        (mod ((-m2) * di) 26) (mod (m0 * di) 26)
        (padX (processedText text)))) := by
  unfold hillCipher
  rw [if_neg (by simp [hv])]
  have hmat : matrixInverse m0 m1 m2 m3 = some (mod (m3 * di) 26,
      mod ((-m1) * di) 26, mod ((-m2) * di) 26, mod (m0 * di) 26) := by
    show Option.map (fun detInv => (mod (m3 * detInv) 26, mod ((-m1) * detInv) 26,
      mod ((-m2) * detInv) 26, mod (m0 * detInv) 26))
      (modInverse (mod (m0 * m3 - m1 * m2) 26) 26) = _
    rw [hdi]
    rfl
  rw [show (if false then some (m0, m1, m2, m3)
      else matrixInverse m0 m1 m2 m3) = matrixInverse m0 m1 m2 m3 from rfl,
    hmat]

theorem padX_of_even (p : List Nat) (h : p.length % 2 = 0) : padX p = p := by
  unfold padX
  rw [if_pos h]

theorem padX_length_even (p : List Nat) : (padX p).length % 2 = 0 := by
  unfold padX
  by_cases h : p.length % 2 = 0
  · rw [if_pos h]
    exact h
  · rw [if_neg h]
    simp only [List.length_append, List.length_cons, List.length_nil]
    omega

theorem padX_mem (p : List Nat) (hmem : ∀ y ∈ p, 65 ≤ y ∧ y ≤ 90) :
    ∀ y ∈ padX p, 65 ≤ y ∧ y ≤ 90 := by
  unfold padX
  by_cases h : p.length % 2 = 0
  · rw [if_pos h]
    exact hmem
  · rw [if_neg h]
    intro y hy
    rcases List.mem_append.mp hy with hy | hy
    · exact hmem y hy
    · simp only [List.mem_cons, List.not_mem_nil, or_false] at hy
      omega

theorem padX_length_ge (p : List Nat) : p.length ≤ (padX p).length := by
  unfold padX
  by_cases h : p.length % 2 = 0
  · rw [if_pos h]
  · rw [if_neg h]
    simp only [List.length_append]
    omega

theorem hill_proj_rt (text : List Nat) (m0 m1 m2 m3 : Int) (e f : List Nat)
    (henc : hillCipher text m0 m1 m2 m3 true = .ok e)
    (hdec : hillCipher e m0 m1 m2 m3 false = .ok f)
    (heven : (processedText text).length % 2 = 0) :
    processedText f = processedText text := by
  by_cases hv : isValidMatrix m0 m1 m2 m3 = true
  · obtain ⟨di, hdi, hinv⟩ := hill_valid_parts m0 m1 m2 m3 hv
    rw [hillCipher_enc_eq text m0 m1 m2 m3 hv, Except.ok.injEq,
      padX_of_even _ heven] at henc
    have hmemP := processedText_mem text
    have hblen : (hillBlocks m0 m1 m2 m3 (processedText text)).length =
        (processedText text).length :=
      hillBlocks_length _ _ _ _ _ heven
    have hbmem := hillBlocks_mem m0 m1 m2 m3 (processedText text)
    have hcount : countLetters text = (processedText text).length :=
      (processedText_length text).symm
    have hpe : processedText e = hillBlocks m0 m1 m2 m3 (processedText text) := by
      rw [← henc, processedText_reinterleave text _ hbmem (by rw [hblen]; omega),
        show countLetters text = (hillBlocks m0 m1 m2 m3
          (processedText text)).length from by omega, List.take_length]
    rw [hillCipher_dec_eq e m0 m1 m2 m3 di hv hdi, Except.ok.injEq] at hdec
    have hpeEven : (processedText e).length % 2 = 0 := by
      rw [hpe, hblen]
      exact heven
    rw [padX_of_even _ hpeEven, hpe,
      hillBlocks_inv m0 m1 m2 m3 di hinv (processedText text) hmemP heven] at hdec
    have hcountE : countLetters e = (processedText text).length := by
      rw [← processedText_length e, hpe, hblen]
    rw [← hdec, processedText_reinterleave e (processedText text) hmemP
      (by omega), hcountE, List.take_length]
  · unfold hillCipher at henc
    rw [if_pos hv] at henc
    exact Except.noConfusion henc

theorem hill_enc_shape (text : List Nat) (m0 m1 m2 m3 : Int) (e : List Nat)
    (henc : hillCipher text m0 m1 m2 m3 true = .ok e) :
    e.length = text.length ∧ countLetters e = countLetters text := by
  by_cases hv : isValidMatrix m0 m1 m2 m3 = true
  · rw [hillCipher_enc_eq text m0 m1 m2 m3 hv, Except.ok.injEq] at henc
    have hbm := hillBlocks_mem m0 m1 m2 m3 (padX (processedText text))
    have hbl : (hillBlocks m0 m1 m2 m3 (padX (processedText text))).length =
        (padX (processedText text)).length :=
      hillBlocks_length _ _ _ _ _ (padX_length_even _)
    have hge : countLetters text ≤
        (hillBlocks m0 m1 m2 m3 (padX (processedText text))).length := by
      rw [hbl]
      have h1 := padX_length_ge (processedText text)
      have h2 := processedText_length text
      omega
    constructor
    · rw [← henc]
      exact reinterleave_length text _ hge
    · rw [← henc]
      exact countLetters_reinterleave text _ hbm hge
  · unfold hillCipher at henc
    rw [if_pos hv] at henc
    exact Except.noConfusion henc

theorem map_passthrough (f : Nat → Nat)
    (hf : ∀ c, isAlphaCode c = false → f c = c) :
    ∀ (l : List Nat) (i : Nat), isAlphaCode (l.getD i 0) = false →
      (l.map f).getD i 0 = l.getD i 0 := by
  intro l
  induction l with
  | nil => intro i _; rfl
  | cons c rest ih =>
    intro i hi
    cases i with
    | zero =>
      simp only [List.getD_cons_zero] at hi ⊢
      simp only [List.map_cons, List.getD_cons_zero]
      exact hf c hi
    | succ n =>
      simp only [List.getD_cons_succ] at hi ⊢
      simp only [List.map_cons, List.getD_cons_succ]
      exact ih n hi

theorem atbashChar_noalpha (c : Nat) (hc : isAlphaCode c = false) :
    atbashChar c = c := by
  obtain ⟨h1, h2⟩ := (isAlphaCode_eq_false_iff c).mp hc
  unfold atbashChar
  rw [if_neg h1, if_neg h2]

theorem caesarChar_noalpha (k : Int) (c : Nat) (hc : isAlphaCode c = false) :
    caesarChar k c = c := by
  obtain ⟨h1, h2⟩ := (isAlphaCode_eq_false_iff c).mp hc
  unfold caesarChar
  rw [if_neg h1, if_neg h2]

theorem affineChar_noalpha (keyA keyB aInv : Int) (m : Bool) (c : Nat)
    (hc : isAlphaCode c = false) : affineChar keyA keyB aInv m c = c := by
  obtain ⟨h1, h2⟩ := (isAlphaCode_eq_false_iff c).mp hc
  unfold affineChar
  rw [if_neg h1, if_neg h2]

theorem vigenereCipher_ok (text key : List Nat) (m : Bool) (out : List Nat)
    (h : vigenereCipher text key m = .ok out) :
    out = mapAccumCipher (vigStep (processKeyLetters key) m) text 0 := by
  by_cases hk : key = []
  · simp only [vigenereCipher, if_pos hk] at h
    exact Except.noConfusion h
  · by_cases hpk : processKeyLetters key = []
    · simp only [vigenereCipher, if_neg hk, if_pos hpk] at h
      exact Except.noConfusion h
    · simp only [vigenereCipher, if_neg hk, if_neg hpk, Except.ok.injEq] at h
      exact h.symm

theorem gronsfeldCipher_ok (text key : List Nat) (m : Bool) (out : List Nat)
    (h : gronsfeldCipher text key m = .ok out) :
    out = mapAccumCipher (gronStep (processKeyDigits key) m) text 0 := by
  by_cases hk : key = []
  · simp only [gronsfeldCipher, if_pos hk] at h
    exact Except.noConfusion h
  · by_cases hpk : processKeyDigits key = []
    · simp only [gronsfeldCipher, if_neg hk, if_pos hpk] at h
      exact Except.noConfusion h
    · simp only [gronsfeldCipher, if_neg hk, if_neg hpk, Except.ok.injEq] at h
      exact h.symm

theorem beaufortCipher_ok (text key : List Nat) (out : List Nat)
    (h : beaufortCipher text key = .ok out) :
    out = mapAccumCipher (beaufortStep (processKeyLetters key)) text 0 := by
  by_cases hk : key = []
  · simp only [beaufortCipher, if_pos hk] at h
    exact Except.noConfusion h
  · by_cases hpk : processKeyLetters key = []
    · simp only [beaufortCipher, if_neg hk, if_pos hpk] at h
      exact Except.noConfusion h
    · simp only [beaufortCipher, if_neg hk, if_neg hpk, Except.ok.injEq] at h
      exact h.symm

theorem autoKeyCipher_ok (text key : List Nat) (m : Bool) (out : List Nat)
    (h : autoKeyCipher text key m = .ok out) :
    out = mapAccumCipher (autoStep m) text (0, processKeyLetters key) := by
  by_cases hk : key = []
  · simp only [autoKeyCipher, if_pos hk] at h
    exact Except.noConfusion h
  · by_cases hpk : processKeyLetters key = []
    · simp only [autoKeyCipher, if_neg hk, if_pos hpk] at h
      exact Except.noConfusion h
    · simp only [autoKeyCipher, if_neg hk, if_neg hpk, Except.ok.injEq] at h
      exact h.symm

theorem runningKeyCipher_ok (text key : List Nat) (m : Bool) (out : List Nat)
    (h : runningKeyCipher text key m = .ok out) :
    out = mapAccumCipher (runStep (buildFullKey (processKeyLetters key)
      (countLetters text)) m) text 0 := by
  by_cases hk : key = []
  · simp only [runningKeyCipher, if_pos hk] at h
    exact Except.noConfusion h
  · by_cases hpk : processKeyLetters key = []
    · simp only [runningKeyCipher, if_neg hk, if_pos hpk] at h
      exact Except.noConfusion h
    · simp only [runningKeyCipher, if_neg hk, if_neg hpk, Except.ok.injEq] at h
      exact h.symm

theorem affineCipher_ok (text : List Nat) (keyA keyB : Int) (m : Bool)
    (out : List Nat) (h : affineCipher text keyA keyB m = .ok out) :
    ∃ aInv, out = text.map (affineChar keyA (mod keyB 26) aInv m) := by
  by_cases hg : jsGcd keyA 26 ≠ 1
  · simp only [affineCipher, if_pos hg] at h
    exact Except.noConfusion h
  · simp only [affineCipher, if_neg hg] at h
    cases m with
    | true =>
      refine ⟨0, ?_⟩
      have h' : Except.ok (text.map (affineChar keyA (mod keyB 26) 0 true)) =
          Except.ok out := h
      rw [Except.ok.injEq] at h'
      exact h'.symm
    | false =>
      rcases hmi : modInverse keyA 26 with - | aInv
      · rw [hmi] at h
        have h' : (Except.error CipherError.noInverse :
            Except CipherError (List Nat)) = Except.ok out := h
        exact Except.noConfusion h'
      · rw [hmi] at h
        refine ⟨aInv, ?_⟩
        have h' : Except.ok (text.map (affineChar keyA (mod keyB 26) aInv false)) =
            Except.ok out := h
        rw [Except.ok.injEq] at h'
        exact h'.symm

theorem countLetters_filter (l : List Nat) :
    countLetters (l.filter isAlphaCode) = countLetters l := by
  unfold countLetters
  rw [List.filter_eq_self.mpr]
  intro a ha
  exact (List.mem_filter.mp ha).2

theorem grillesCipher_rect (text : List Nat) (maskRows : List (List Nat))
    (hrect : maskRows.all (fun r => r.length == (maskRows.headD []).length) = true) :
    grillesCipher text maskRows true =
      if text.length > grilleHoleCount maskRows * 4 then .error .textTooLong
      else .ok ((((List.range maskRows.length).flatMap (fun i =>
        (List.range (maskRows.headD []).length).map (fun j =>
          assocGrid ((grilleWriteOrder maskRows.length (maskRows.headD []).length
            (maskRows.map (fun r => r.map (fun c => c == 49)))).zip text) i j))).filter
          (fun c => c != 32))) := by
  unfold grillesCipher grilleHoleCount
  rw [if_neg (fun h => h hrect)]
  rfl

/-- Claim C1 (amended): the round trip decrypt(encrypt(text, key), key) = text
holds for Atbash, Caesar, Affine (with nonnegative keyA), Vigenere, Gronsfeld,
Beaufort, Auto-Key, Running-Key and Rail Fence, whenever encryption succeeds;
it does NOT hold for Route, Columnar, Double Transposition or Myszkowski
(see the counterexample). -/
theorem c1_amended :
    (∀ text, atbashCipher (atbashCipher text) = text) ∧
    (∀ text k, caesarCipher (caesarCipher text k true) k false = text) ∧
    (∀ text keyA keyB ct, 0 ≤ keyA → affineCipher text keyA keyB true = .ok ct →
      affineCipher ct keyA keyB false = .ok text) ∧
    (∀ text key ct, vigenereCipher text key true = .ok ct →
      vigenereCipher ct key false = .ok text) ∧
    (∀ text key ct, gronsfeldCipher text key true = .ok ct →
      gronsfeldCipher ct key false = .ok text) ∧
    (∀ text key ct, beaufortCipher text key = .ok ct →
      beaufortCipher ct key = .ok text) ∧
    (∀ text key ct, autoKeyCipher text key true = .ok ct →
      autoKeyCipher ct key false = .ok text) ∧
    (∀ text key ct, runningKeyCipher text key true = .ok ct →
      runningKeyCipher ct key false = .ok text) ∧
    (∀ text rails ct, railFenceCipher text rails true = .ok ct →
      railFenceCipher ct rails false = .ok text) :=
  ⟨atbash_atbash, caesar_rt, affine_rt, vigenere_rt, gronsfeld_rt, beaufort_rt,
    autoKey_rt, runningKey_rt, railFenceCipher_rt⟩

theorem c1_amended_witness :
    caesarCipher (caesarCipher (codes "Hi!") 3 true) 3 false = codes "Hi!" ∧
    affineCipher (codes "IN") 5 8 false = .ok (codes "AB") ∧
    vigenereCipher (codes "B C") (codes "B") false = .ok (codes "A B") :=
  ⟨c1_amended.2.1 (codes "Hi!") 3,
   c1_amended.2.2.1 (codes "AB") 5 8 (codes "IN") (by decide) (by decide),
   c1_amended.2.2.2.1 (codes "A B") (codes "B") (codes "B C") (by decide)⟩

theorem c1_counterexample :
    columnarCipher (codes "HELLOWORLD") (codes "3124") true =
      .ok (codes "EWDLOHOLLR") ∧
    columnarCipher (codes "EWDLOHOLLR") (codes "3124") false =
      .ok (codes "OELLLWORDH") ∧
    codes "OELLLWORDH" ≠ codes "HELLOWORLD" ∧
    routeCipher (codes "A B") 2 2 true = .ok (codes "A  B") ∧
    routeCipher (codes "A  B") 2 2 false = .ok (codes "AB") ∧
    codes "AB" ≠ codes "A B" ∧
    doubleTranspositionCipher (codes "HELLOWORLD") (codes "3124") (codes "21")
      true = .ok (codes "WLHLREDOOL") ∧
    doubleTranspositionCipher (codes "WLHLREDOOL") (codes "3124") (codes "21")
      false = .ok (codes "OELLLWORDH") ∧
    myszkowskiCipher (codes "A B") (codes "AB") true = .ok (codes "AB") ∧
    myszkowskiCipher (codes "AB") (codes "AB") false = .ok (codes "AB") := by
  decide

/-- Claim C2 (amended): the Hill round trip on the alphabetic-only,
case-flattened, padding-included projection holds only when the alphabetic
projection of the input already has even length (then the padding is empty);
for odd-length projections the transformed padding letter is dropped by
re-interleaving and the projection is not recovered (see the
counterexample). -/
theorem c2_amended (text : List Nat) (m0 m1 m2 m3 : Int) (e f : List Nat)
    (henc : hillCipher text m0 m1 m2 m3 true = .ok e)
    (hdec : hillCipher e m0 m1 m2 m3 false = .ok f)
    (heven : (processedText text).length % 2 = 0) :
    processedText f = padX (processedText text) := by
  rw [padX_of_even (processedText text) heven]
  exact hill_proj_rt text m0 m1 m2 m3 e f henc hdec heven

theorem c2_amended_witness :
    processedText (codes "ABCD") = padX (processedText (codes "ABCD")) :=
  c2_amended (codes "ABCD") 1 2 3 5 (codes "CFIV") (codes "ABCD")
    (by decide) (by decide) (by decide)

theorem c2_counterexample :
    isValidMatrix 1 2 3 5 = true ∧
    hillCipher (codes "ABC") 1 2 3 5 true = .ok (codes "CFW") ∧
    hillCipher (codes "CFW") 1 2 3 5 false = .ok (codes "ABO") ∧
    processedText (codes "ABO") ≠ padX (processedText (codes "ABC")) := by
  decide

/-- Claim C3: Atbash is self-inverse on every text, and the Beaufort
transform applied twice with any key containing at least one letter returns
the original text (the embedding has a single branch used for both
directions). -/
theorem c3 :
    (∀ text, atbashCipher (atbashCipher text) = text) ∧
    (∀ text key, processKeyLetters key ≠ [] →
      ∃ ct, beaufortCipher text key = .ok ct ∧ beaufortCipher ct key = .ok text) := by
  refine ⟨atbash_atbash, fun text key hpk => ?_⟩
  have hkey : key ≠ [] := by
    intro h
    rw [h] at hpk
    exact hpk rfl
  have henc : beaufortCipher text key =
      .ok (mapAccumCipher (beaufortStep (processKeyLetters key)) text 0) := by
    simp only [beaufortCipher, if_neg hkey, if_neg hpk]
  exact ⟨_, henc, beaufort_rt text key _ henc⟩

theorem c3_witness :
    atbashCipher (atbashCipher (codes "Hello!")) = codes "Hello!" ∧
    ∃ ct, beaufortCipher (codes "AB") (codes "K") = .ok ct ∧
      beaufortCipher ct (codes "K") = .ok (codes "AB") :=
  ⟨c3.1 (codes "Hello!"), c3.2 (codes "AB") (codes "K") (by decide)⟩

/-- Claim C6 (amended): the Hill cipher output has exactly the same length
and the same letter count as the input text; the transformed padding letter
produced for an odd-length alphabetic projection is dropped when the result
is re-interleaved into the original text, so the output does NOT contain one
more letter than the input projection (see the counterexample). -/
theorem c6_amended (text : List Nat) (m0 m1 m2 m3 : Int) (e : List Nat)
    (henc : hillCipher text m0 m1 m2 m3 true = .ok e) :
    countLetters e = countLetters text ∧ e.length = text.length := by
  obtain ⟨h1, h2⟩ := hill_enc_shape text m0 m1 m2 m3 e henc
  exact ⟨h2, h1⟩

theorem c6_amended_witness :
    countLetters (codes "CFW") = countLetters (codes "ABC") ∧
    (codes "CFW").length = (codes "ABC").length :=
  c6_amended (codes "ABC") 1 2 3 5 (codes "CFW") (by decide)

theorem c6_counterexample :
    (processedText (codes "ABC")).length % 2 = 1 ∧
    hillCipher (codes "ABC") 1 2 3 5 true = .ok (codes "CFW") ∧
    countLetters (codes "CFW") ≠ (processedText (codes "ABC")).length + 1 := by
  decide

/-- Claim C8: encrypting WEAREDISCOVEREDFLEEATONCE with 3 rails produces
exactly WECRLTEERDSOEEFEAOCAIVDEN. -/
theorem c8 :
    railFenceCipher (codes "WEAREDISCOVEREDFLEEATONCE") 3 true =
      .ok (codes "WECRLTEERDSOEEFEAOCAIVDEN") := by
  decide

/-- Claim C4: every substitution-family cipher (Atbash, Caesar, Affine,
Vigenere, Gronsfeld, Beaufort, Auto-Key, Running-Key) produces an output of
exactly the input length, and every non-alphabetic character appears
unchanged at its original position. -/
theorem c4 :
    (∀ text : List Nat, (atbashCipher text).length = text.length ∧
      ∀ i, isAlphaCode (text.getD i 0) = false →
        (atbashCipher text).getD i 0 = text.getD i 0) ∧
    (∀ (text : List Nat) (k : Int) (m : Bool),
      (caesarCipher text k m).length = text.length ∧
      ∀ i, isAlphaCode (text.getD i 0) = false →
        (caesarCipher text k m).getD i 0 = text.getD i 0) ∧
    (∀ (text : List Nat) (keyA keyB : Int) (m : Bool) (out : List Nat),
      affineCipher text keyA keyB m = .ok out → out.length = text.length ∧
      ∀ i, isAlphaCode (text.getD i 0) = false → out.getD i 0 = text.getD i 0) ∧
    (∀ (text key : List Nat) (m : Bool) (out : List Nat),
      vigenereCipher text key m = .ok out → out.length = text.length ∧
      ∀ i, isAlphaCode (text.getD i 0) = false → out.getD i 0 = text.getD i 0) ∧
    (∀ (text key : List Nat) (m : Bool) (out : List Nat),
      gronsfeldCipher text key m = .ok out → out.length = text.length ∧
      ∀ i, isAlphaCode (text.getD i 0) = false → out.getD i 0 = text.getD i 0) ∧
    (∀ (text key out : List Nat),
      beaufortCipher text key = .ok out → out.length = text.length ∧
      ∀ i, isAlphaCode (text.getD i 0) = false → out.getD i 0 = text.getD i 0) ∧
    (∀ (text key : List Nat) (m : Bool) (out : List Nat),
      autoKeyCipher text key m = .ok out → out.length = text.length ∧
      ∀ i, isAlphaCode (text.getD i 0) = false → out.getD i 0 = text.getD i 0) ∧
    (∀ (text key : List Nat) (m : Bool) (out : List Nat),
      runningKeyCipher text key m = .ok out → out.length = text.length ∧
      ∀ i, isAlphaCode (text.getD i 0) = false → out.getD i 0 = text.getD i 0) := by
  refine ⟨?_, ?_, ?_, ?_, ?_, ?_, ?_, ?_⟩
  · intro text
    refine ⟨List.length_map text atbashChar, fun i hi => ?_⟩
    exact map_passthrough atbashChar atbashChar_noalpha text i hi
  · intro text k m
    have he : caesarCipher text k m =
        text.map (caesarChar (if m then mod k 26 else 26 - mod k 26)) := rfl
    rw [he]
    refine ⟨List.length_map text _, fun i hi => ?_⟩
    exact map_passthrough _ (caesarChar_noalpha _) text i hi
  · intro text keyA keyB m out h
    obtain ⟨aInv, he⟩ := affineCipher_ok text keyA keyB m out h
    subst he
    refine ⟨List.length_map text _, fun i hi => ?_⟩
    exact map_passthrough _ (affineChar_noalpha keyA (mod keyB 26) aInv m) text i hi
  · intro text key m out h
    have he := vigenereCipher_ok text key m out h
    subst he
    refine ⟨mapAccum_length _ text 0, fun i hi => ?_⟩
    exact mapAccum_passthrough _ (fun c s hc => by
      rw [shiftShape_noalpha (vigStep_shape (processKeyLetters key)) m c s hc])
      text 0 i hi
  · intro text key m out h
    have he := gronsfeldCipher_ok text key m out h
    subst he
    refine ⟨mapAccum_length _ text 0, fun i hi => ?_⟩
    exact mapAccum_passthrough _ (fun c s hc => by
      rw [shiftShape_noalpha (gronStep_shape (processKeyDigits key)) m c s hc])
      text 0 i hi
  · intro text key out h
    have he := beaufortCipher_ok text key out h
    subst he
    refine ⟨mapAccum_length _ text 0, fun i hi => ?_⟩
    exact mapAccum_passthrough _ (fun c s hc => by
      rw [beaufortStep_noalpha (processKeyLetters key) c s hc]) text 0 i hi
  · intro text key m out h
    have he := autoKeyCipher_ok text key m out h
    subst he
    refine ⟨mapAccum_length _ text _, fun i hi => ?_⟩
    exact mapAccum_passthrough _ (fun c s hc => autoStep_noalpha_fst m c s hc)
      text _ i hi
  · intro text key m out h
    have he := runningKeyCipher_ok text key m out h
    subst he
    refine ⟨mapAccum_length _ text 0, fun i hi => ?_⟩
    exact mapAccum_passthrough _ (fun c s hc => by
      rw [shiftShape_noalpha (runStep_shape _) m c s hc]) text 0 i hi

theorem c4_witness :
    (codes "IN!").length = (codes "AB!").length ∧
    (codes "IN!").getD 2 0 = (codes "AB!").getD 2 0 :=
  ⟨(c4.2.2.1 (codes "AB!") 5 8 true (codes "IN!") (by decide)).1,
   (c4.2.2.1 (codes "AB!") 5 8 true (codes "IN!") (by decide)).2 2 (by decide)⟩

/-- Claim C5 (amended): for Vigenere, Gronsfeld, Beaufort and Running-Key
the key stream advances only on alphabetic characters, so the cipher
commutes with filtering out non-alphabetic characters; Auto-Key violates
this (its growing key is indexed by the absolute character position, see the
counterexample). -/
theorem c5_amended :
    (∀ (text key : List Nat) (m : Bool) (out : List Nat),
      vigenereCipher text key m = .ok out →
      vigenereCipher (text.filter isAlphaCode) key m =
        .ok (out.filter isAlphaCode)) ∧
    (∀ (text key : List Nat) (m : Bool) (out : List Nat),
      gronsfeldCipher text key m = .ok out →
      gronsfeldCipher (text.filter isAlphaCode) key m =
        .ok (out.filter isAlphaCode)) ∧
    (∀ (text key out : List Nat),
      beaufortCipher text key = .ok out →
      beaufortCipher (text.filter isAlphaCode) key =
        .ok (out.filter isAlphaCode)) ∧
    (∀ (text key : List Nat) (m : Bool) (out : List Nat),
      runningKeyCipher text key m = .ok out →
      runningKeyCipher (text.filter isAlphaCode) key m =
        .ok (out.filter isAlphaCode)) := by
  refine ⟨?_, ?_, ?_, ?_⟩
  · intro text key m out h
    by_cases hk : key = []
    · simp only [vigenereCipher, if_pos hk] at h
      exact Except.noConfusion h
    by_cases hpk : processKeyLetters key = []
    · simp only [vigenereCipher, if_neg hk, if_pos hpk] at h
      exact Except.noConfusion h
    have he := vigenereCipher_ok text key m out h
    simp only [vigenereCipher, if_neg hk, if_neg hpk, Except.ok.injEq]
    rw [he]
    exact (mapAccum_filter _
      (fun c s hc => shiftShape_noalpha (vigStep_shape _) m c s hc)
      (fun c s hc => shiftShape_alpha (vigStep_shape _) m c s hc) text 0).symm
  · intro text key m out h
    by_cases hk : key = []
    · simp only [gronsfeldCipher, if_pos hk] at h
      exact Except.noConfusion h
    by_cases hpk : processKeyDigits key = []
    · simp only [gronsfeldCipher, if_neg hk, if_pos hpk] at h
      exact Except.noConfusion h
    have he := gronsfeldCipher_ok text key m out h
    simp only [gronsfeldCipher, if_neg hk, if_neg hpk, Except.ok.injEq]
    rw [he]
    exact (mapAccum_filter _
      (fun c s hc => shiftShape_noalpha (gronStep_shape _) m c s hc)
      (fun c s hc => shiftShape_alpha (gronStep_shape _) m c s hc) text 0).symm
  · intro text key out h
    by_cases hk : key = []
    · simp only [beaufortCipher, if_pos hk] at h
      exact Except.noConfusion h
    by_cases hpk : processKeyLetters key = []
    · simp only [beaufortCipher, if_neg hk, if_pos hpk] at h
      exact Except.noConfusion h
    have he := beaufortCipher_ok text key out h
    simp only [beaufortCipher, if_neg hk, if_neg hpk, Except.ok.injEq]
    rw [he]
    exact (mapAccum_filter _
      (fun c s hc => beaufortStep_noalpha _ c s hc)
      (fun c s hc => beaufortStep_alpha _ c s hc) text 0).symm
  · intro text key m out h
    by_cases hk : key = []
    · simp only [runningKeyCipher, if_pos hk] at h
      exact Except.noConfusion h
    by_cases hpk : processKeyLetters key = []
    · simp only [runningKeyCipher, if_neg hk, if_pos hpk] at h
      exact Except.noConfusion h
    have he := runningKeyCipher_ok text key m out h
    simp only [runningKeyCipher, if_neg hk, if_neg hpk, Except.ok.injEq]
    rw [countLetters_filter text, he]
    exact (mapAccum_filter _
      (fun c s hc => shiftShape_noalpha (runStep_shape _) m c s hc)
      (fun c s hc => shiftShape_alpha (runStep_shape _) m c s hc) text 0).symm

theorem c5_amended_witness :
    vigenereCipher ((codes "A B").filter isAlphaCode) (codes "B") true =
      .ok ((codes "B C").filter isAlphaCode) :=
  c5_amended.1 (codes "A B") (codes "B") true (codes "B C") (by decide)

theorem c5_counterexample :
    (codes "A B").filter isAlphaCode = codes "AB" ∧
    autoKeyCipher (codes "A B") (codes "KEY") true = .ok (codes "K Z") ∧
    autoKeyCipher (codes "AB") (codes "KEY") true = .ok (codes "KF") ∧
    (codes "K Z").filter isAlphaCode ≠ codes "KF" := by
  decide

/-- Claim C7 (amended): for nonnegative keyA the Affine cipher fails with
InvalidKey exactly on the keys with gcd(keyA, 26) different from 1 and
succeeds on every coprime keyA, in both modes; for negative coprime keyA
decryption fails with NoInverse (see the counterexample). -/
theorem c7_amended (text : List Nat) (keyA keyB : Int) (m : Bool)
    (ha : 0 ≤ keyA) :
    (Int.gcd keyA 26 ≠ 1 → affineCipher text keyA keyB m = .error .invalidKey) ∧
    (Int.gcd keyA 26 = 1 → ∃ s, affineCipher text keyA keyB m = .ok s) := by
  have hj := jsGcd_eq_gcd_of_nonneg keyA ha
  constructor
  · intro hg
    have hne : jsGcd keyA 26 ≠ 1 := by
      rw [hj]
      intro h
      exact hg (by exact_mod_cast h)
    simp only [affineCipher, if_pos hne]
  · intro hg
    have hne : ¬ jsGcd keyA 26 ≠ 1 := by simp [hj, hg]
    simp only [affineCipher, if_neg hne]
    cases m with
    | true => exact ⟨_, rfl⟩
    | false =>
      obtain ⟨inv, hinv⟩ :=
        Option.isSome_iff_exists.mp (modInverse_isSome_of_gcd keyA ha hg)
      rw [hinv]
      exact ⟨_, rfl⟩

theorem c7_amended_witness :
    affineCipher (codes "AB") 2 1 true = .error .invalidKey ∧
    ∃ s, affineCipher (codes "AB") 5 1 false = .ok s :=
  ⟨(c7_amended (codes "AB") 2 1 true (by decide)).1 (by decide),
   (c7_amended (codes "AB") 5 1 false (by decide)).2 (by decide)⟩

theorem c7_counterexample :
    Int.gcd (-5) 26 = 1 ∧
    affineCipher (codes "A") (-5) 0 true = .ok (codes "A") ∧
    affineCipher (codes "A") (-5) 0 false = .error .noInverse := by
  decide

/-- Claim C9: with a rectangular mask, Grille encryption fails with
TextTooLong exactly when the text length exceeds four times the hole count,
and within the limit it always produces an output. -/
theorem c9 (text : List Nat) (maskRows : List (List Nat))
    (hrect : maskRows.all (fun r => r.length == (maskRows.headD []).length) = true) :
    (grillesCipher text maskRows true = .error .textTooLong ↔
      text.length > grilleHoleCount maskRows * 4) ∧
    (text.length ≤ grilleHoleCount maskRows * 4 →
      ∃ s, grillesCipher text maskRows true = .ok s) := by
  rw [grillesCipher_rect text maskRows hrect]
  constructor
  · constructor
    · intro h
      by_contra hlen
      rw [if_neg hlen] at h
      exact Except.noConfusion h
    · intro hlen
      rw [if_pos hlen]
  · intro hlen
    rw [if_neg (by omega : ¬ text.length > grilleHoleCount maskRows * 4)]
    exact ⟨_, rfl⟩

theorem c9_witness :
    grillesCipher (codes "ABCDE") [[49, 48], [48, 48]] true =
      .error .textTooLong ∧
    ∃ s, grillesCipher (codes "ABC") [[49, 48], [48, 48]] true = .ok s :=
  ⟨(c9 (codes "ABCDE") [[49, 48], [48, 48]] (by decide)).1.mpr (by decide),
   (c9 (codes "ABC") [[49, 48], [48, 48]] (by decide)).2 (by decide)⟩

/-- Claim C10 (amended): for a negative keyA that the source gcd computes
as 1 (for example keyA = -5), Affine encryption succeeds yet decryption
fails with NoInverse, because the truncating remainder in the inverse search
is never 1 for negative keyA; but not every negative keyA coprime with 26 is
accepted by the validation: the source gcd can return -1 (see the
counterexample with keyA = -3). -/
theorem c10_amended (text : List Nat) (keyA keyB : Int) (ha : keyA < 0)
    (hg : jsGcd keyA 26 = 1) :
    (∃ s, affineCipher text keyA keyB true = .ok s) ∧
    affineCipher text keyA keyB false = .error .noInverse := by
  have hne : ¬ jsGcd keyA 26 ≠ 1 := fun h => h hg
  constructor
  · simp only [affineCipher, if_neg hne]
    exact ⟨_, rfl⟩
  · simp only [affineCipher, if_neg hne, Bool.false_eq_true, if_false]
    rw [modInverse_none_of_neg keyA ha]

theorem c10_amended_witness :
    (∃ s, affineCipher (codes "AB") (-5) 1 true = .ok s) ∧
    affineCipher (codes "AB") (-5) 1 false = .error .noInverse :=
  c10_amended (codes "AB") (-5) 1 (by decide) (by decide)

theorem c10_counterexample :
    Int.gcd (-3) 26 = 1 ∧ jsGcd (-3) 26 = -1 ∧
    affineCipher (codes "A") (-3) 0 true = .error .invalidKey := by
  decide
